import Mathlib

/-!
Verification of the block indexing storage engine in `db/rocksdb.go`
(blockbook).  The development shallowly embeds the Go source:

* bytes are `Nat` values (each `< 256` where produced by the code);
* Go `uint32` / `uint64` / `int64` arithmetic is `Nat` / `Int` arithmetic
  with explicit `% 2^32` / `% 2^64` at the points where the Go code can
  wrap;
* Go run-time panics (out-of-bounds slice or index, nil dereference) are
  modelled by `Option` / an explicit panic marker: `none` means the Go
  code panics on that input;
* fallible code returns `Except`;
* recursion that Go expresses as loops is expressed by structural
  recursion (on a list, a counter, or an explicit fuel argument when the
  Go loop has no structural measure), so that every definition evaluates
  by kernel reduction.

Definitions carry the names of the Go functions they embed
(`packBigint`, `unpackVaruint`, `storeAndCleanupBlockTxs`, ...).
-/

namespace Blockbook

/-! ## Byte-level helpers

Big-endian interpretation of a byte list, as performed by
`binary.BigEndian` and `big.Int.SetBytes` in the Go source. -/

/-- Big-endian value of a byte list: `beToNat [a, b] = a * 256 + b`. -/
def beToNat (bs : List Nat) : Nat :=
  bs.foldl (fun acc b => acc * 256 + b) 0

/-- The `k` big-endian bytes of `w` (assuming `w < 2^(8*k)`); mirrors the
byte-store loops of `packBigint` and `binary.BigEndian.PutUint32`. -/
def beBytes : Nat → Nat → List Nat
  | 0, _ => []
  | k + 1, w => beBytes k (w / 256) ++ [w % 256]

theorem beBytes_length (k w : Nat) : (beBytes k w).length = k := by
  induction k generalizing w with
  | zero => rfl
  | succ k ih => simp [beBytes, ih]

theorem beToNat_append (a b : List Nat) :
    beToNat (a ++ b) = beToNat a * 256 ^ b.length + beToNat b := by
  induction b generalizing a with
  | nil => simp [beToNat]
  | cons x xs ih =>
    have h1 : a ++ x :: xs = (a ++ [x]) ++ xs := by simp
    have h2 : beToNat (a ++ [x]) = beToNat a * 256 + x := by
      simp [beToNat, List.foldl_append]
    calc beToNat (a ++ x :: xs)
        = beToNat ((a ++ [x]) ++ xs) := by rw [h1]
      _ = beToNat (a ++ [x]) * 256 ^ xs.length + beToNat xs := ih (a ++ [x])
      _ = (beToNat a * 256 + x) * 256 ^ xs.length + beToNat xs := by rw [h2]
      _ = beToNat a * 256 ^ (x :: xs).length + beToNat (x :: xs) := by
          have : beToNat (x :: xs) = x * 256 ^ xs.length + beToNat xs := by
            have := ih [x]
            simpa [beToNat] using this
          simp [List.length_cons, this, pow_succ]
          ring

theorem beToNat_beBytes (k w : Nat) (h : w < 2 ^ (8 * k)) :
    beToNat (beBytes k w) = w := by
  induction k generalizing w with
  | zero =>
    interval_cases w
    rfl
  | succ k ih =>
    have hdiv : w / 256 < 2 ^ (8 * k) := by
      rw [Nat.div_lt_iff_lt_mul (by norm_num)]
      calc w < 2 ^ (8 * (k + 1)) := h
        _ = 2 ^ (8 * k) * 256 := by rw [Nat.mul_succ, pow_add]; norm_num
    calc beToNat (beBytes (k + 1) w)
        = beToNat (beBytes k (w / 256) ++ [w % 256]) := rfl
      _ = beToNat (beBytes k (w / 256)) * 256 ^ (1 : Nat) + beToNat [w % 256] := by
          rw [beToNat_append]; rfl
      _ = (w / 256) * 256 + w % 256 := by rw [ih _ hdiv]; simp [beToNat]
      _ = w := by rw [Nat.mul_comm]; exact Nat.div_add_mod w 256

theorem beToNat_lt (bs : List Nat) (h : ∀ b ∈ bs, b < 256) :
    beToNat bs < 256 ^ bs.length := by
  induction bs using List.reverseRecOn with
  | nil => simp [beToNat]
  | append_singleton xs x ih =>
    have hx : x < 256 := h x (by simp)
    have hxs : beToNat xs < 256 ^ xs.length := ih (fun b hb => h b (by simp [hb]))
    have : beToNat (xs ++ [x]) = beToNat xs * 256 + x := by
      simp [beToNat, List.foldl_append]
    rw [this]
    calc beToNat xs * 256 + x < beToNat xs * 256 + 256 := by omega
      _ = (beToNat xs + 1) * 256 := by ring
      _ ≤ 256 ^ xs.length * 256 := by
          have : beToNat xs + 1 ≤ 256 ^ xs.length := hxs
          exact Nat.mul_le_mul_right _ this
      _ = 256 ^ (xs ++ [x]).length := by simp [pow_succ]

theorem beBytes_bytes_lt (k w : Nat) : ∀ b ∈ beBytes k w, b < 256 := by
  induction k generalizing w with
  | zero => simp [beBytes]
  | succ k ih =>
    intro b hb
    simp only [beBytes, List.mem_append, List.mem_singleton] at hb
    rcases hb with hb | hb
    · exact ih _ _ hb
    · subst hb; exact Nat.mod_lt _ (by norm_num)

/-! ## Variable-length integer codec (`github.com/bsm/go-vlq`)

`vlq.PutUint` emits little-endian base-128 groups with the continuation
bit in the high bit; `vlq.Uint` is the matching decoder with the Go
`encoding/binary`-style result convention: a positive offset on success,
`0` when the buffer ends inside a value, and `-(i+1)` when the value
overflows 64 bits at byte `i`. -/

/-- Fuel-driven body of `vlq.PutUint`; the fuel only bounds the recursion
depth (`x` loses 7 bits per step, so any fuel above `x` is enough) and is
there so the definition is structurally recursive. -/
def putUvarintF : Nat → Nat → List Nat
  | 0, _ => []
  | fuel + 1, x => if x < 128 then [x] else (x % 128 + 128) :: putUvarintF fuel (x / 128)

/-- The Go source's `packVaruint` is `vlq.PutUint` into a caller buffer;
here the encoder returns the written bytes.  The emitted continuation
byte `byte(x) | 0x80` equals `x % 128 + 128`. -/
def packVaruint (x : Nat) : List Nat := putUvarintF (x + 1) x

theorem putUvarintF_irrel (x : Nat) : ∀ f₁ f₂, x < f₁ → x < f₂ →
    putUvarintF f₁ x = putUvarintF f₂ x := by
  induction x using Nat.strong_induction_on with
  | _ x ih =>
    intro f₁ f₂ h₁ h₂
    match f₁, f₂ with
    | g₁ + 1, g₂ + 1 =>
      simp only [putUvarintF]
      by_cases hx : x < 128
      · simp [hx]
      · have hlt : x / 128 < x := Nat.div_lt_self (by omega) (by norm_num)
        simp only [hx, if_false]
        rw [ih (x / 128) hlt g₁ g₂ (by omega) (by omega)]

theorem packVaruint_eq (x : Nat) :
    packVaruint x = if x < 128 then [x] else (x % 128 + 128) :: packVaruint (x / 128) := by
  by_cases hx : x < 128
  · simp [packVaruint, putUvarintF, hx]
  · have hlt : x / 128 < x := Nat.div_lt_self (by omega) (by norm_num)
    have step : packVaruint x = (x % 128 + 128) :: putUvarintF x (x / 128) := by
      simp [packVaruint, putUvarintF, hx]
    rw [step, if_neg hx, putUvarintF_irrel (x / 128) x (x / 128 + 1) (by omega) (by omega)]
    rfl

/-- Body of `vlq.Uint`.  `i` is the byte index, `s = 7*i` the current
shift, `x` the accumulator.  Go ORs each 7-bit group into disjoint bit
positions of `x`; because the groups are disjoint at every index that can
still reach a successful return, OR coincides with addition, and the
`% 2^64` is the uint64 truncation of the shifted group. -/
def vlqUintAux : List Nat → Nat → Nat → Nat → Nat × Int
  | [], _, _, _ => (0, 0)
  | b :: rest, i, s, x =>
    if b < 128 then
      if 9 < i ∨ (i = 9 ∧ 1 < b) then (0, -((i : Int) + 1))
      else ((x + b * 2 ^ s) % 2 ^ 64, (i : Int) + 1)
    else vlqUintAux rest (i + 1) (s + 7) ((x + b % 128 * 2 ^ s) % 2 ^ 64)

/-- The Go source's `unpackVaruint`: `vlq.Uint` returning the decoded
value and the (possibly zero or negative) consumed-byte count. -/
def unpackVaruint (buf : List Nat) : Nat × Int := vlqUintAux buf 0 0 0

theorem vlqUintAux_put (y : Nat) : ∀ i x, y < 2 ^ (64 - 7 * i) → 7 * i ≤ 63 →
    x < 2 ^ (7 * i) →
    vlqUintAux (packVaruint y) i (7 * i) x =
      (x + y * 2 ^ (7 * i), (i : Int) + (packVaruint y).length) := by
  induction y using Nat.strong_induction_on with
  | _ y ih =>
    intro i x hy hs hx
    rw [packVaruint_eq]
    by_cases hy128 : y < 128
    · simp only [if_pos hy128, vlqUintAux, List.length_cons, List.length_nil]
      have hguard : ¬(9 < i ∨ (i = 9 ∧ 1 < y)) := by
        rcases Nat.lt_or_ge i 9 with h9 | h9
        · omega
        · have hi9 : i = 9 := by omega
          subst hi9
          have : y < 2 ^ 1 := by simpa using hy
          omega
      have hnomod : x + y * 2 ^ (7 * i) < 2 ^ 64 := by
        have h1 : y * 2 ^ (7 * i) ≤ (2 ^ (64 - 7 * i) - 1) * 2 ^ (7 * i) :=
          Nat.mul_le_mul_right _ (by omega)
        have h2 : (2 ^ (64 - 7 * i) - 1) * 2 ^ (7 * i) = 2 ^ 64 - 2 ^ (7 * i) := by
          have hpow : 2 ^ (64 - 7 * i) * 2 ^ (7 * i) = 2 ^ 64 := by
            rw [← pow_add]
            congr 1
            omega
          have hple : (1 : Nat) ≤ 2 ^ (64 - 7 * i) := Nat.one_le_two_pow
          calc (2 ^ (64 - 7 * i) - 1) * 2 ^ (7 * i)
              = 2 ^ (64 - 7 * i) * 2 ^ (7 * i) - 1 * 2 ^ (7 * i) :=
                Nat.sub_mul _ _ _
            _ = 2 ^ 64 - 2 ^ (7 * i) := by rw [hpow, one_mul]
        have h3 : 2 ^ (7 * i) ≤ 2 ^ 64 := Nat.pow_le_pow_right (by norm_num) (by omega)
        omega
      rw [if_neg hguard, Nat.mod_eq_of_lt hnomod]
      norm_num
    · simp only [if_neg hy128, vlqUintAux, List.length_cons]
      have hb : ¬(y % 128 + 128 < 128) := by omega
      rw [if_neg hb]
      have hmod : (y % 128 + 128) % 128 = y % 128 := by omega
      have hstep : 7 < 64 - 7 * i := by
        by_contra hcon
        have : 2 ^ (64 - 7 * i) ≤ 2 ^ 7 := Nat.pow_le_pow_right (by norm_num) (by omega)
        omega
      have hs1 : 7 * (i + 1) ≤ 63 := by omega
      have hy1 : y / 128 < 2 ^ (64 - 7 * (i + 1)) := by
        have : y < 2 ^ (64 - 7 * i) := hy
        have h128 : (128 : Nat) = 2 ^ 7 := by norm_num
        rw [Nat.div_lt_iff_lt_mul (by norm_num : 0 < 128)]
        calc y < 2 ^ (64 - 7 * i) := hy
          _ = 2 ^ (64 - 7 * (i + 1)) * 128 := by
              rw [h128, ← pow_add]
              congr 1
              omega
      have hx1 : x + y % 128 * 2 ^ (7 * i) < 2 ^ (7 * (i + 1)) := by
        have h1 : y % 128 < 128 := Nat.mod_lt _ (by norm_num)
        have h2 : y % 128 * 2 ^ (7 * i) ≤ 127 * 2 ^ (7 * i) :=
          Nat.mul_le_mul_right _ (by omega)
        have h3 : 2 ^ (7 * (i + 1)) = 128 * 2 ^ (7 * i) := by
          have : 7 * (i + 1) = 7 + 7 * i := by ring
          rw [this, pow_add]
          norm_num
        omega
      have hnomod : x + y % 128 * 2 ^ (7 * i) < 2 ^ 64 := by
        have : 2 ^ (7 * (i + 1)) ≤ 2 ^ 64 := Nat.pow_le_pow_right (by norm_num) (by omega)
        omega
      rw [hmod, Nat.mod_eq_of_lt hnomod]
      have hrec := ih (y / 128) (Nat.div_lt_self (by omega) (by norm_num)) (i + 1)
        (x + y % 128 * 2 ^ (7 * i)) hy1 hs1 hx1
      have hshift : (7 : Nat) * i + 7 = 7 * (i + 1) := by ring
      rw [hshift, hrec]
      have harith : x + y % 128 * 2 ^ (7 * i) + y / 128 * 2 ^ (7 * (i + 1)) =
          x + y * 2 ^ (7 * i) := by
        have h3 : 2 ^ (7 * (i + 1)) = 2 ^ (7 * i) * 128 := by
          have : 7 * (i + 1) = 7 * i + 7 := by ring
          rw [this, pow_add]
          norm_num
        have hy' : y % 128 + y / 128 * 128 = y := by omega
        calc x + y % 128 * 2 ^ (7 * i) + y / 128 * 2 ^ (7 * (i + 1))
            = x + (y % 128 + y / 128 * 128) * 2 ^ (7 * i) := by rw [h3]; ring
          _ = x + y * 2 ^ (7 * i) := by rw [hy']
      rw [harith]
      push_cast
      ring_nf

/-- Round trip of the unsigned varint codec on any 64-bit value. -/
theorem unpackVaruint_packVaruint (x : Nat) (h : x < 2 ^ 64) :
    unpackVaruint (packVaruint x) = (x, ((packVaruint x).length : Int)) := by
  have := vlqUintAux_put x 0 0 (by simpa using h) (by norm_num) (by norm_num)
  simpa [unpackVaruint] using this

/-! ## Signed varint (`vlq.PutInt` / `vlq.Int`): zig-zag over the unsigned codec -/

/-- The uint64 bit pattern of an int64 value (`uint64(x)` in Go). -/
def uint64OfInt (x : Int) : Nat := (x % (2 ^ 64 : Int)).toNat

/-- The zig-zag pre-encoding of `vlq.PutInt`:
`ux := uint64(x) << 1; if x < 0 then ux = ^ux`. -/
def zigzag (x : Int) : Nat :=
  let ux := uint64OfInt x * 2 % 2 ^ 64
  if x < 0 then 2 ^ 64 - 1 - ux else ux

/-- The Go source's `packVarint` (and `packVarint32`, whose argument is
first sign-extended to int64): `vlq.PutInt`. -/
def packVarint (x : Int) : List Nat := packVaruint (zigzag x)

/-- The int64 view of a uint64 bit pattern (`int64(u)` in Go). -/
def int64OfUint (u : Nat) : Int := if u < 2 ^ 63 then (u : Int) else (u : Int) - 2 ^ 64

/-- The Go source's `unpackVarint`: `vlq.Int`, i.e.
`x := int64(ux >> 1); if ux & 1 != 0 then x = ^x` (and `^x = -x - 1`). -/
def unpackVarint (buf : List Nat) : Int × Int :=
  let p := unpackVaruint buf
  let x := int64OfUint (p.1 / 2)
  (if p.1 % 2 ≠ 0 then -x - 1 else x, p.2)

/-- Truncation of an int64 to int32 (`int32(i)` in Go). -/
def int32OfInt (x : Int) : Int :=
  let u := (x % (2 ^ 32 : Int)).toNat
  if u < 2 ^ 31 then (u : Int) else (u : Int) - 2 ^ 32

/-- The Go source's `unpackVarint32`: `vlq.Int` truncated to int32. -/
def unpackVarint32 (buf : List Nat) : Int × Int :=
  let p := unpackVarint buf
  (int32OfInt p.1, p.2)

/-- The Go source's `packVarint32`: identical byte output to `packVarint`
after the int32 argument is sign-extended to int64. -/
def packVarint32 (x : Int) : List Nat := packVarint x

theorem zigzag_nonneg (x : Int) (h0 : 0 ≤ x) (h : x < 2 ^ 63) :
    zigzag x = (2 * x).toNat := by
  have hx : x % (2 ^ 64 : Int) = x := Int.emod_eq_of_lt h0 (by omega)
  have hnn : ¬x < 0 := by omega
  have hmod : (x.toNat * 2) % 2 ^ 64 = x.toNat * 2 := by
    apply Nat.mod_eq_of_lt
    have : x.toNat < 2 ^ 63 := by omega
    omega
  simp only [zigzag, uint64OfInt, hx, if_neg hnn, hmod]
  omega

theorem zigzag_neg (x : Int) (h0 : x < 0) (h : -(2 ^ 63) ≤ x) :
    zigzag x = (-2 * x - 1).toNat := by
  have hx : x % (2 ^ 64 : Int) = x + 2 ^ 64 := by omega
  have hneg : x < 0 := h0
  have htn : ((x % (2 ^ 64 : Int)).toNat : Int) = x + 2 ^ 64 := by
    rw [hx]
    rw [Int.toNat_of_nonneg (by omega)]
  simp only [zigzag, uint64OfInt, if_pos hneg]
  have h2 : ((x % (2 ^ 64 : Int)).toNat * 2) % 2 ^ 64 = ((x % (2 ^ 64 : Int)).toNat * 2) - 2 ^ 64 := by
    have hlow : 2 ^ 64 ≤ (x % (2 ^ 64 : Int)).toNat * 2 := by omega
    have hhigh : (x % (2 ^ 64 : Int)).toNat * 2 < 2 * 2 ^ 64 := by omega
    omega
  rw [h2]
  omega

theorem zigzag_lt (x : Int) (hlo : -(2 ^ 63) ≤ x) (hhi : x < 2 ^ 63) :
    zigzag x < 2 ^ 64 := by
  by_cases h0 : x < 0
  · rw [zigzag_neg x h0 hlo]
    omega
  · rw [zigzag_nonneg x (by omega) hhi]
    omega

/-- Round trip of the signed varint codec on any int64 value. -/
theorem unpackVarint_packVarint (x : Int) (hlo : -(2 ^ 63) ≤ x) (hhi : x < 2 ^ 63) :
    unpackVarint (packVarint x) = (x, ((packVarint x).length : Int)) := by
  unfold unpackVarint packVarint
  rw [unpackVaruint_packVaruint (zigzag x) (zigzag_lt x hlo hhi)]
  by_cases h0 : x < 0
  · rw [zigzag_neg x h0 hlo]
    have h1 : (-2 * x - 1).toNat % 2 = 1 := by omega
    have h2 : (-2 * x - 1).toNat / 2 = (-x - 1).toNat := by omega
    have h3 : int64OfUint ((-x - 1).toNat) = -x - 1 := by
      unfold int64OfUint
      rw [if_pos (by omega)]
      omega
    simp only [h1, h2, h3]
    norm_num
  · rw [zigzag_nonneg x (by omega) hhi]
    have h1 : (2 * x).toNat % 2 = 0 := by omega
    have h2 : (2 * x).toNat / 2 = x.toNat := by omega
    have h3 : int64OfUint x.toNat = x := by
      unfold int64OfUint
      rw [if_pos (by omega)]
      omega
    simp only [h1, h2, h3]
    norm_num

/-! ## Fixed 32-bit big-endian codec and the address key -/

/-- The Go source's `packUint`: `binary.BigEndian.PutUint32`.  On a
`uint32` argument this is its four big-endian bytes (`beBytes`, like the
Go store loop, only ever keeps the low 32 bits). -/
def packUint (i : Nat) : List Nat := beBytes 4 i

/-- The Go source's `unpackUint`: `binary.BigEndian.Uint32`.  Go panics
when fewer than four bytes are present; every caller in the source hands
it a key of at least four bytes, and the catch-all branch is unreachable
there. -/
def unpackUint : List Nat → Nat
  | b0 :: b1 :: b2 :: b3 :: _ => ((b0 * 256 + b1) * 256 + b2) * 256 + b3
  | _ => 0

/-- The Go source's `packAddressKey`: address descriptor bytes followed
by the packed big-endian height. -/
def packAddressKey (addrDesc : List Nat) (height : Nat) : List Nat :=
  addrDesc ++ packUint height

/-- The Go source's `unpackAddressKey`: splits the last four bytes off as
the height; a key of at most four bytes is an `Invalid address key`
error (`none`). -/
def unpackAddressKey (key : List Nat) : Option (List Nat × Nat) :=
  if key.length ≤ 4 then none
  else some (key.take (key.length - 4), unpackUint (key.drop (key.length - 4)))

theorem packUint_length (i : Nat) : (packUint i).length = 4 := beBytes_length 4 i

theorem unpackUint_packUint (i : Nat) (h : i < 2 ^ 32) : unpackUint (packUint i) = i := by
  have hb : packUint i = [i / 256 / 256 / 256 % 256, i / 256 / 256 % 256, i / 256 % 256, i % 256] := rfl
  rw [hb]
  show ((i / 256 / 256 / 256 % 256 * 256 + i / 256 / 256 % 256) * 256 + i / 256 % 256) * 256
      + i % 256 = i
  omega

/-- Round trip of the address-key codec for a non-empty descriptor. -/
theorem unpackAddressKey_packAddressKey (addrDesc : List Nat) (height : Nat)
    (hne : addrDesc ≠ []) (h32 : height < 2 ^ 32) :
    unpackAddressKey (packAddressKey addrDesc height) = some (addrDesc, height) := by
  have hlen : (packAddressKey addrDesc height).length = addrDesc.length + 4 := by
    simp [packAddressKey, packUint_length]
  have hpos : 0 < addrDesc.length := List.length_pos.mpr hne
  unfold unpackAddressKey
  rw [if_neg (by omega)]
  have htake : (packAddressKey addrDesc height).take
      ((packAddressKey addrDesc height).length - 4) = addrDesc := by
    rw [hlen]
    have : addrDesc.length + 4 - 4 = addrDesc.length := by omega
    rw [this]
    simp [packAddressKey]
  have hdrop : (packAddressKey addrDesc height).drop
      ((packAddressKey addrDesc height).length - 4) = packUint height := by
    rw [hlen]
    have : addrDesc.length + 4 - 4 = addrDesc.length := by omega
    rw [this]
    simp [packAddressKey]
  rw [htake, hdrop, unpackUint_packUint height h32]

/-! ## Packed big integer codec (`packBigint` / `unpackBigint`)

`big.Int` magnitudes are non-negative, so a value is a `Nat`; `Bits()`
is its little-endian list of 64-bit words (the source computes
`wordBits = 64` on a 64-bit platform). -/

/-- Number of bits in a `big.Word` on a 64-bit platform
(`32 << (uint64(^big.Word(0)) >> 63)`). -/
def wordBits : Nat := 64

/-- Number of bytes in a `big.Word` (`wordBits / 8`). -/
def wordBytes : Nat := wordBits / 8

/-- The source constant `maxPackedBigintWords = (256 - wordBytes) / wordBytes`. -/
def maxPackedBigintWords : Nat := (256 - wordBytes) / wordBytes

/-- The source constant `maxPackedBigintBytes`. -/
def maxPackedBigintBytes : Nat := 249

/-- Fuel-driven little-endian 64-bit word decomposition (the fuel only
bounds recursion depth; any fuel of at least `n` is enough). -/
def ntoWords : Nat → Nat → List Nat
  | 0, _ => []
  | fuel + 1, n => if n = 0 then [] else n % 2 ^ 64 :: ntoWords fuel (n / 2 ^ 64)

/-- `big.Int.Bits()` of a non-negative value: its little-endian 64-bit
words, with no trailing zero word. -/
def bigIntBits (n : Nat) : List Nat := ntoWords n n

/-- Value of a little-endian word list. -/
def leWordsToNat (ws : List Nat) : Nat := ws.foldr (fun w acc => w + acc * 2 ^ 64) 0

/-- The byte length of the most significant word that `packBigint`
computes with its `mask` loop (`fb` after the first loop): the number of
significant bytes of a word in `[1, 2^64)`. -/
def sigByteLen (w : Nat) : Nat :=
  if w < 2 ^ 8 then 1 else if w < 2 ^ 16 then 2 else if w < 2 ^ 24 then 3
  else if w < 2 ^ 32 then 4 else if w < 2 ^ 40 then 5 else if w < 2 ^ 48 then 6
  else if w < 2 ^ 56 then 7 else 8

/-- The Go source's `packBigint` (returning the written bytes instead of
filling a caller buffer): one length byte, then the significant bytes of
the top word, then the full 8 bytes of each following word from index
`lw-2` down to `s = lw - maxPackedBigintWords` — i.e. magnitudes longer
than `maxPackedBigintWords` words are truncated to their most
significant words. -/
def packBigint (n : Nat) : List Nat :=
  let w := bigIntBits n
  let lw := w.length
  if lw = 0 then [0]
  else
    let w0 := w.getLastD 0
    let fb := sigByteLen w0
    let s := lw - maxPackedBigintWords
    let mids := ((w.drop s).dropLast).reverse
    (fb + 8 * mids.length) :: (beBytes fb w0 ++ (mids.map (beBytes 8)).flatten)

/-- The Go source's `unpackBigint`: reads the length byte `buf[0]` and
sets the value from the next `buf[0]` bytes.  `none` models the Go
panics: indexing an empty buffer, or slicing `buf[1:l]` past the end. -/
def unpackBigint (buf : List Nat) : Option (Nat × Nat) :=
  match buf with
  | [] => none
  | b :: rest => if b ≤ rest.length then some (beToNat (rest.take b), b + 1) else none

theorem ntoWords_irrel (n : Nat) : ∀ f₁ f₂, n ≤ f₁ → n ≤ f₂ →
    ntoWords f₁ n = ntoWords f₂ n := by
  induction n using Nat.strong_induction_on with
  | _ n ih =>
    intro f₁ f₂ h₁ h₂
    by_cases hn : n = 0
    · subst hn
      cases f₁ <;> cases f₂ <;> simp [ntoWords]
    · cases f₁ with
      | zero => omega
      | succ g₁ =>
        cases f₂ with
        | zero => omega
        | succ g₂ =>
          simp only [ntoWords, hn, if_false]
          have hlt : n / 2 ^ 64 < n := Nat.div_lt_self (by omega) (by norm_num)
          rw [ih (n / 2 ^ 64) hlt g₁ g₂ (by omega) (by omega)]

theorem bigIntBits_eq (n : Nat) :
    bigIntBits n = if n = 0 then [] else n % 2 ^ 64 :: bigIntBits (n / 2 ^ 64) := by
  by_cases hn : n = 0
  · subst hn; rfl
  · have step : bigIntBits n = n % 2 ^ 64 :: ntoWords (n - 1) (n / 2 ^ 64) := by
      unfold bigIntBits
      cases n with
      | zero => omega
      | succ m => simp [ntoWords]
    rw [step, if_neg hn]
    have hlt : n / 2 ^ 64 < n := Nat.div_lt_self (by omega) (by norm_num)
    rw [ntoWords_irrel (n / 2 ^ 64) (n - 1) (n / 2 ^ 64) (by omega) (le_refl _)]
    rfl

theorem leWordsToNat_bigIntBits (n : Nat) : leWordsToNat (bigIntBits n) = n := by
  induction n using Nat.strong_induction_on with
  | _ n ih =>
    rw [bigIntBits_eq]
    by_cases hn : n = 0
    · simp [hn, leWordsToNat]
    · have hlt : n / 2 ^ 64 < n := Nat.div_lt_self (by omega) (by norm_num)
      rw [if_neg hn]
      show n % 2 ^ 64 + leWordsToNat (bigIntBits (n / 2 ^ 64)) * 2 ^ 64 = n
      rw [ih (n / 2 ^ 64) hlt]
      omega

theorem bigIntBits_words_lt (n : Nat) : ∀ w ∈ bigIntBits n, w < 2 ^ 64 := by
  induction n using Nat.strong_induction_on with
  | _ n ih =>
    rw [bigIntBits_eq]
    by_cases hn : n = 0
    · simp [hn]
    · rw [if_neg hn]
      intro w hw
      rcases List.mem_cons.mp hw with rfl | hw2
      · exact Nat.mod_lt _ (by norm_num)
      · exact ih (n / 2 ^ 64) (Nat.div_lt_self (by omega) (by norm_num)) w hw2

theorem bigIntBits_length_le (n : Nat) : ∀ k, (bigIntBits n).length ≤ k ↔ n < 2 ^ (64 * k) := by
  induction n using Nat.strong_induction_on with
  | _ n ih =>
    intro k
    rw [bigIntBits_eq]
    by_cases hn : n = 0
    · subst hn
      rw [if_pos rfl]
      simp only [List.length_nil]
      have hpos : 0 < 2 ^ (64 * k) := Nat.pos_pow_of_pos _ (by norm_num)
      constructor
      · intro _; omega
      · intro _; omega
    · rw [if_neg hn]
      match k with
      | 0 =>
        simp only [pow_zero, List.length_cons]
        omega
      | k + 1 =>
        have hlt : n / 2 ^ 64 < n := Nat.div_lt_self (by omega) (by norm_num)
        rw [List.length_cons, Nat.succ_le_succ_iff, ih (n / 2 ^ 64) hlt k]
        have hexp : 2 ^ (64 * (k + 1)) = 2 ^ (64 * k) * 2 ^ 64 := by
          have h64 : 64 * (k + 1) = 64 * k + 64 := by ring
          rw [h64, pow_add]
        rw [hexp, Nat.div_lt_iff_lt_mul (by norm_num : 0 < 2 ^ 64)]

theorem getLastD_default_irrel : ∀ (l : List Nat) (a b : Nat), l ≠ [] →
    l.getLastD a = l.getLastD b := by
  intro l
  induction l with
  | nil => tauto
  | cons x t ih =>
    intro a b _
    cases t with
    | nil => rfl
    | cons y u =>
      show (y :: u).getLastD x = (y :: u).getLastD x
      rfl

theorem bigIntBits_getLastD_pos (n : Nat) (hn : n ≠ 0) : 0 < (bigIntBits n).getLastD 0 := by
  induction n using Nat.strong_induction_on with
  | _ n ih =>
    rw [bigIntBits_eq, if_neg hn]
    by_cases hq : n / 2 ^ 64 = 0
    · have hbits : bigIntBits (n / 2 ^ 64) = [] := by rw [bigIntBits_eq, if_pos hq]
      rw [hbits]
      show 0 < n % 2 ^ 64
      omega
    · have hlt : n / 2 ^ 64 < n := Nat.div_lt_self (by omega) (by norm_num)
      have hpos := ih (n / 2 ^ 64) hlt hq
      have hne : bigIntBits (n / 2 ^ 64) ≠ [] := by
        intro hcon
        rw [hcon] at hpos
        simp at hpos
      have hcons : (n % 2 ^ 64 :: bigIntBits (n / 2 ^ 64)).getLastD 0 =
          (bigIntBits (n / 2 ^ 64)).getLastD (n % 2 ^ 64) := by
        cases hb : bigIntBits (n / 2 ^ 64) with
        | nil => exact absurd hb hne
        | cons z zs => rfl
      rw [hcons, getLastD_default_irrel _ _ 0 hne]
      exact hpos

theorem leWordsToNat_append_singleton (xs : List Nat) (u : Nat) :
    leWordsToNat (xs ++ [u]) = leWordsToNat xs + u * 2 ^ (64 * xs.length) := by
  induction xs with
  | nil => simp [leWordsToNat]
  | cons x t ih =>
    show x + leWordsToNat (t ++ [u]) * 2 ^ 64 = x + leWordsToNat t * 2 ^ 64 + u * 2 ^ (64 * (t.length + 1))
    rw [ih]
    have : 64 * (t.length + 1) = 64 * t.length + 64 := by ring
    rw [this, pow_add]
    ring

theorem wordsFlatten_length (m : List Nat) :
    ((m.map (beBytes 8)).flatten).length = 8 * m.length := by
  induction m with
  | nil => simp
  | cons u t ih =>
    simp only [List.map_cons, List.flatten_cons, List.length_append, ih, beBytes_length,
      List.length_cons]
    ring

theorem beToNat_wordsFlatten (m : List Nat) (h : ∀ w ∈ m, w < 2 ^ 64) :
    beToNat ((m.map (beBytes 8)).flatten) = leWordsToNat m.reverse := by
  induction m with
  | nil => simp [beToNat, leWordsToNat]
  | cons u t ih =>
    have hu : u < 2 ^ 64 := h u (by simp)
    have ht : ∀ w ∈ t, w < 2 ^ 64 := fun w hw => h w (by simp [hw])
    simp only [List.map_cons, List.flatten_cons, List.reverse_cons]
    rw [beToNat_append, wordsFlatten_length, ih ht, leWordsToNat_append_singleton]
    rw [beToNat_beBytes 8 u (by simpa using hu)]
    have h256 : (256 : Nat) ^ (8 * t.length) = 2 ^ (64 * t.length) := by
      have : (256 : Nat) = 2 ^ 8 := by norm_num
      rw [this, ← pow_mul]
      congr 1
      ring
    rw [h256, List.length_reverse]
    ring

theorem leWordsToNat_drop (s : Nat) : ∀ ws : List Nat, (∀ w ∈ ws, w < 2 ^ 64) →
    leWordsToNat (ws.drop s) = leWordsToNat ws / 2 ^ (64 * s) := by
  induction s with
  | zero => intro ws _; simp
  | succ s ih =>
    intro ws hws
    cases ws with
    | nil => simp [leWordsToNat]
    | cons w t =>
      have hw : w < 2 ^ 64 := hws w (by simp)
      have ht : ∀ u ∈ t, u < 2 ^ 64 := fun u hu => hws u (by simp [hu])
      show leWordsToNat (t.drop s) = leWordsToNat (w :: t) / 2 ^ (64 * (s + 1))
      rw [ih t ht]
      have hval : leWordsToNat (w :: t) = w + leWordsToNat t * 2 ^ 64 := rfl
      have hexp : (2 : Nat) ^ (64 * (s + 1)) = 2 ^ 64 * 2 ^ (64 * s) := by
        have : 64 * (s + 1) = 64 + 64 * s := by ring
        rw [this, pow_add]
      have hq : (w + leWordsToNat t * 2 ^ 64) / 2 ^ 64 = leWordsToNat t := by
        rw [Nat.add_mul_div_right _ _ (by norm_num : 0 < 2 ^ 64)]
        omega
      rw [hval, hexp, ← Nat.div_div_eq_div_mul, hq]

theorem getLastD_mem (l : List Nat) (h : l ≠ []) : l.getLastD 0 ∈ l := by
  induction l with
  | nil => tauto
  | cons x t ih =>
    cases t with
    | nil => simp
    | cons y u =>
      have : (x :: y :: u).getLastD 0 = (y :: u).getLastD 0 := by
        show (y :: u).getLastD x = (y :: u).getLastD 0
        exact getLastD_default_irrel _ _ _ (by simp)
      rw [this]
      exact List.mem_cons_of_mem _ (ih (by simp))

theorem getLastD_drop (s : Nat) : ∀ l : List Nat, s < l.length →
    (l.drop s).getLastD 0 = l.getLastD 0 := by
  induction s with
  | zero => intro l _; rfl
  | succ s ih =>
    intro l hs
    cases l with
    | nil => simp at hs
    | cons x t =>
      have ht : s < t.length := by simpa using hs
      have htne : t ≠ [] := by
        intro hcon
        rw [hcon] at ht
        simp at ht
      show (t.drop s).getLastD 0 = (x :: t).getLastD 0
      rw [ih t ht]
      cases t with
      | nil => tauto
      | cons y u =>
        show (y :: u).getLastD 0 = (y :: u).getLastD x
        exact getLastD_default_irrel _ _ _ (by simp)

theorem dropLast_append_getLastD (l : List Nat) (h : l ≠ []) :
    l.dropLast ++ [l.getLastD 0] = l := by
  induction l with
  | nil => tauto
  | cons x t ih =>
    cases t with
    | nil => rfl
    | cons y u =>
      have hne : (y :: u) ≠ ([] : List Nat) := by simp
      show x :: ((y :: u).dropLast ++ [(x :: y :: u).getLastD 0]) = x :: y :: u
      have hlast : (x :: y :: u).getLastD 0 = (y :: u).getLastD 0 := by
        show (y :: u).getLastD x = (y :: u).getLastD 0
        exact getLastD_default_irrel _ _ _ hne
      rw [hlast, ih hne]

theorem sigByteLen_le_eight (w : Nat) : sigByteLen w ≤ 8 := by
  unfold sigByteLen
  split_ifs <;> norm_num

theorem sigByteLen_lt (w : Nat) (h : w < 2 ^ 64) : w < 2 ^ (8 * sigByteLen w) := by
  unfold sigByteLen
  by_cases h1 : w < 2 ^ 8
  · rw [if_pos h1]; norm_num at h1 ⊢; omega
  rw [if_neg h1]
  by_cases h2 : w < 2 ^ 16
  · rw [if_pos h2]; norm_num at h2 ⊢; omega
  rw [if_neg h2]
  by_cases h3 : w < 2 ^ 24
  · rw [if_pos h3]; norm_num at h3 ⊢; omega
  rw [if_neg h3]
  by_cases h4 : w < 2 ^ 32
  · rw [if_pos h4]; norm_num at h4 ⊢; omega
  rw [if_neg h4]
  by_cases h5 : w < 2 ^ 40
  · rw [if_pos h5]; norm_num at h5 ⊢; omega
  rw [if_neg h5]
  by_cases h6 : w < 2 ^ 48
  · rw [if_pos h6]; norm_num at h6 ⊢; omega
  rw [if_neg h6]
  by_cases h7 : w < 2 ^ 56
  · rw [if_pos h7]; norm_num at h7 ⊢; omega
  · rw [if_neg h7]; norm_num at h ⊢; omega

/-- Where the packed-bigint codec lands for every value: the decoder
accepts the encoder's output and returns the value truncated to its
`maxPackedBigintWords` most significant 64-bit words. -/
theorem unpackBigint_packBigint (n : Nat) :
    unpackBigint (packBigint n) =
      some (n / 2 ^ (64 * ((bigIntBits n).length - maxPackedBigintWords)),
            (packBigint n).length) := by
  by_cases hn : n = 0
  · subst hn
    rfl
  · have hwne : bigIntBits n ≠ [] := by
      intro hcon
      have := leWordsToNat_bigIntBits n
      rw [hcon] at this
      exact hn (by simpa [leWordsToNat] using this.symm)
    have hlw : 0 < (bigIntBits n).length := List.length_pos.mpr hwne
    set w : List Nat := bigIntBits n with hw
    set lw : Nat := w.length with hlwdef
    set w0 : Nat := w.getLastD 0 with hw0
    set s : Nat := lw - maxPackedBigintWords with hs
    set mids : List Nat := ((w.drop s).dropLast).reverse with hmids
    have hpack : packBigint n =
        (sigByteLen w0 + 8 * mids.length) ::
          (beBytes (sigByteLen w0) w0 ++ (mids.map (beBytes 8)).flatten) := by
      unfold packBigint
      rw [← hw, if_neg (by omega)]
    have hslt : s < lw := by
      have h31 : maxPackedBigintWords = 31 := by norm_num [maxPackedBigintWords, wordBytes, wordBits]
      omega
    have hdropne : w.drop s ≠ [] := by
      intro hcon
      have := List.length_drop s w
      rw [hcon] at this
      simp only [List.length_nil] at this
      omega
    have hw0mem : w0 ∈ w := getLastD_mem w hwne
    have hw0lt : w0 < 2 ^ 64 := bigIntBits_words_lt n w0 hw0mem
    have hw0pos : 0 < w0 := bigIntBits_getLastD_pos n hn
    have hmidwords : ∀ u ∈ mids, u < 2 ^ 64 := by
      intro u hu
      rw [hmids] at hu
      have h1 : u ∈ (w.drop s).dropLast := List.mem_reverse.mp hu
      have h2 : u ∈ w.drop s := List.dropLast_subset _ h1
      exact bigIntBits_words_lt n u (List.mem_of_mem_drop h2)
    have hbodylen : (beBytes (sigByteLen w0) w0 ++ (mids.map (beBytes 8)).flatten).length =
        sigByteLen w0 + 8 * mids.length := by
      rw [List.length_append, beBytes_length, wordsFlatten_length]
    have hbodyval : beToNat (beBytes (sigByteLen w0) w0 ++ (mids.map (beBytes 8)).flatten) =
        n / 2 ^ (64 * s) := by
      rw [beToNat_append, wordsFlatten_length, beToNat_wordsFlatten mids hmidwords,
        beToNat_beBytes _ _ (sigByteLen_lt w0 hw0lt)]
      have hrr : mids.reverse = (w.drop s).dropLast := by rw [hmids, List.reverse_reverse]
      have hmlen : mids.length = (w.drop s).dropLast.length := by rw [hmids, List.length_reverse]
      have hlastdrop : (w.drop s).getLastD 0 = w0 := getLastD_drop s w (by omega)
      have hsplit : (w.drop s).dropLast ++ [w0] = w.drop s := by
        rw [← hlastdrop]
        exact dropLast_append_getLastD _ hdropne
      have h256 : (256 : Nat) ^ (8 * mids.length) = 2 ^ (64 * mids.length) := by
        have h8 : (256 : Nat) = 2 ^ 8 := by norm_num
        rw [h8, ← pow_mul]
        congr 1
        ring
      calc w0 * 256 ^ (8 * mids.length) + leWordsToNat mids.reverse
          = leWordsToNat mids.reverse + w0 * 2 ^ (64 * mids.length) := by rw [h256]; ring
        _ = leWordsToNat ((w.drop s).dropLast) + w0 * 2 ^ (64 * (w.drop s).dropLast.length) := by
            rw [hrr, hmlen]
        _ = leWordsToNat ((w.drop s).dropLast ++ [w0]) := (leWordsToNat_append_singleton _ _).symm
        _ = leWordsToNat (w.drop s) := by rw [hsplit]
        _ = leWordsToNat w / 2 ^ (64 * s) := leWordsToNat_drop s w (bigIntBits_words_lt n)
        _ = n / 2 ^ (64 * s) := by rw [hw, leWordsToNat_bigIntBits]
    rw [hpack]
    show (if sigByteLen w0 + 8 * mids.length ≤
          (beBytes (sigByteLen w0) w0 ++ (mids.map (beBytes 8)).flatten).length then
          some (beToNat ((beBytes (sigByteLen w0) w0 ++ (mids.map (beBytes 8)).flatten).take
            (sigByteLen w0 + 8 * mids.length)),
            sigByteLen w0 + 8 * mids.length + 1)
        else none) =
      some (n / 2 ^ (64 * s),
        ((sigByteLen w0 + 8 * mids.length) ::
          (beBytes (sigByteLen w0) w0 ++ (mids.map (beBytes 8)).flatten)).length)
    rw [if_pos (le_of_eq hbodylen.symm), List.length_cons, ← hbodylen, List.take_length, hbodyval]

/-- Fuel-driven byte length of a natural magnitude (the length of
`big.Int.Bytes()`, i.e. the number of base-256 digits; 0 for zero). -/
def natBytesLenF : Nat → Nat → Nat
  | 0, _ => 0
  | fuel + 1, n => if n = 0 then 0 else natBytesLenF fuel (n / 256) + 1

/-- Byte length of the natural magnitude of a non-negative big integer. -/
def natBytesLen (n : Nat) : Nat := natBytesLenF n n

theorem natBytesLenF_irrel (n : Nat) : ∀ f₁ f₂, n ≤ f₁ → n ≤ f₂ →
    natBytesLenF f₁ n = natBytesLenF f₂ n := by
  induction n using Nat.strong_induction_on with
  | _ n ih =>
    intro f₁ f₂ h₁ h₂
    by_cases hn : n = 0
    · subst hn
      cases f₁ <;> cases f₂ <;> simp [natBytesLenF]
    · cases f₁ with
      | zero => omega
      | succ g₁ =>
        cases f₂ with
        | zero => omega
        | succ g₂ =>
          simp only [natBytesLenF, hn, if_false]
          have hlt : n / 256 < n := Nat.div_lt_self (by omega) (by norm_num)
          rw [ih (n / 256) hlt g₁ g₂ (by omega) (by omega)]

theorem natBytesLen_eq (n : Nat) :
    natBytesLen n = if n = 0 then 0 else natBytesLen (n / 256) + 1 := by
  by_cases hn : n = 0
  · subst hn; rfl
  · have step : natBytesLen n = natBytesLenF (n - 1) (n / 256) + 1 := by
      unfold natBytesLen
      cases n with
      | zero => omega
      | succ m => simp [natBytesLenF]
    rw [step, if_neg hn]
    have hlt : n / 256 < n := Nat.div_lt_self (by omega) (by norm_num)
    rw [natBytesLenF_irrel (n / 256) (n - 1) (n / 256) (by omega) (le_refl _)]
    rfl

theorem natBytesLen_le_iff (n : Nat) : ∀ k, natBytesLen n ≤ k ↔ n < 256 ^ k := by
  induction n using Nat.strong_induction_on with
  | _ n ih =>
    intro k
    rw [natBytesLen_eq]
    by_cases hn : n = 0
    · subst hn
      rw [if_pos rfl]
      have hpos : 0 < 256 ^ k := Nat.pos_pow_of_pos _ (by norm_num)
      constructor
      · intro _; omega
      · intro _; omega
    · rw [if_neg hn]
      match k with
      | 0 =>
        simp only [pow_zero]
        omega
      | k + 1 =>
        have hlt : n / 256 < n := Nat.div_lt_self (by omega) (by norm_num)
        rw [Nat.succ_le_succ_iff, ih (n / 256) hlt k]
        have hexp : (256 : Nat) ^ (k + 1) = 256 ^ k * 256 := pow_succ 256 k
        rw [hexp, Nat.div_lt_iff_lt_mul (by norm_num : 0 < 256)]

/-- The most significant 64-bit word of a non-negative big integer. -/
def bigIntTopWord (n : Nat) : Nat := (bigIntBits n).getLastD 0

theorem bytes248_iff (n : Nat) : natBytesLen n ≤ 248 ↔ (bigIntBits n).length ≤ 31 := by
  rw [natBytesLen_le_iff n 248, bigIntBits_length_le n 31]
  have h : (256 : Nat) ^ 248 = 2 ^ (64 * 31) := by
    have h8 : (256 : Nat) = 2 ^ 8 := by norm_num
    rw [h8, ← pow_mul]
  rw [h]

/-- Round trip of the packed-bigint codec on magnitudes of at most 248
bytes: no truncation occurs. -/
theorem unpackBigint_packBigint_roundtrip (n : Nat) (h : natBytesLen n ≤ 248) :
    unpackBigint (packBigint n) = some (n, (packBigint n).length) := by
  have h31 : (bigIntBits n).length ≤ 31 := (bytes248_iff n).mp h
  have h31w : maxPackedBigintWords = 31 := by
    norm_num [maxPackedBigintWords, wordBytes, wordBits]
  have hzero : (bigIntBits n).length - maxPackedBigintWords = 0 := by omega
  have := unpackBigint_packBigint n
  rw [hzero] at this
  simpa using this

theorem sigByteLen_pos (w : Nat) : 1 ≤ sigByteLen w := by
  unfold sigByteLen
  split_ifs <;> norm_num

/-- Length of the truncated encoding of a magnitude longer than 248
bytes: one length byte, the significant bytes of the top word, and 30
full words. -/
theorem packBigint_length_big (n : Nat) (h : 248 < natBytesLen n) :
    (packBigint n).length = sigByteLen (bigIntTopWord n) + 241 := by
  have h31w : maxPackedBigintWords = 31 := by
    norm_num [maxPackedBigintWords, wordBytes, wordBits]
  have h32 : 32 ≤ (bigIntBits n).length := by
    by_contra hcon
    have : natBytesLen n ≤ 248 := (bytes248_iff n).mpr (by omega)
    omega
  have hlw : (bigIntBits n).length ≠ 0 := by omega
  unfold packBigint
  rw [if_neg hlw]
  simp only [List.length_cons, List.length_append, List.length_reverse, beBytes_length,
    wordsFlatten_length]
  have hdroplen : ((bigIntBits n).drop ((bigIntBits n).length - maxPackedBigintWords)).length =
      maxPackedBigintWords := by
    rw [List.length_drop]
    omega
  rw [List.length_dropLast, hdroplen, h31w]
  show sigByteLen (bigIntTopWord n) + 8 * (31 - 1) + 1 = sigByteLen (bigIntTopWord n) + 241
  omega

/-! ## Byte-level decoders of persisted values

`unpackTxInput` / `unpackTxOutput` / `unpackTxAddresses`,
`unpackNOutpoints` and the decode loop of `getBlockTxs`, with Go's
run-time slice checks made explicit: `none` means the Go code panics
(out-of-bounds slice or index) on that input. -/

/-- Go slice expression `buf[lo:hi]`: panics unless `0 ≤ lo ≤ hi ≤ len`. -/
def sliceGo (buf : List Nat) (lo hi : Int) : Option (List Nat) :=
  if 0 ≤ lo ∧ lo ≤ hi ∧ hi ≤ (buf.length : Int) then
    some ((buf.drop lo.toNat).take (hi - lo).toNat)
  else none

/-- The Go source's `unpackTxInput`: returns `(addrDesc, valueSat)` and
the number of consumed bytes (as the Go `int` it computes). -/
def unpackTxInputGo (buf : List Nat) : Option ((List Nat × Nat) × Int) :=
  let p := unpackVaruint buf
  -- ti.AddrDesc = make([]byte, al); copy(ti.AddrDesc, buf[l:l+int(al)])
  match sliceGo buf p.2 (p.2 + int64OfUint p.1) with
  | none => none
  | some addr =>
    -- al += uint(l), with the uint64 wrap of the conversion
    let al2 : Nat := (p.1 + uint64OfInt p.2) % 2 ^ 64
    match sliceGo buf (al2 : Int) buf.length with
    | none => none
    | some rest =>
      match unpackBigint rest with
      | none => none
      | some q => some ((addr, q.1), (q.2 : Int) + int64OfUint al2)

/-- The Go source's `unpackTxOutput`: returns
`(addrDesc, spent, valueSat)` and the consumed-byte count; a negative
varint address length means the spent flag (`al = ^al`). -/
def unpackTxOutputGo (buf : List Nat) : Option ((List Nat × Bool × Nat) × Int) :=
  let p := unpackVarint buf
  let spent := p.1 < 0
  let al : Int := if p.1 < 0 then -p.1 - 1 else p.1
  match sliceGo buf p.2 (p.2 + al) with
  | none => none
  | some addr =>
    let al2 := al + p.2
    match sliceGo buf al2 buf.length with
    | none => none
    | some rest =>
      match unpackBigint rest with
      | none => none
      | some q => some ((addr, spent, q.1), (q.2 : Int) + al2)

/-- The input loop of `unpackTxAddresses`: `inputs` iterations of
`l += unpackTxInput(&ta.Inputs[i], buf[l:])`. -/
def unpackTxInputsLoop (buf : List Nat) :
    Nat → Int → List (List Nat × Nat) → Option (List (List Nat × Nat) × Int)
  | 0, l, acc => some (acc.reverse, l)
  | k + 1, l, acc =>
    match sliceGo buf l buf.length with
    | none => none
    | some sub =>
      match unpackTxInputGo sub with
      | none => none
      | some (ti, used) => unpackTxInputsLoop buf k (l + used) (ti :: acc)

/-- The output loop of `unpackTxAddresses`. -/
def unpackTxOutputsLoop (buf : List Nat) :
    Nat → Int → List (List Nat × Bool × Nat) →
      Option (List (List Nat × Bool × Nat) × Int)
  | 0, l, acc => some (acc.reverse, l)
  | k + 1, l, acc =>
    match sliceGo buf l buf.length with
    | none => none
    | some sub =>
      match unpackTxOutputGo sub with
      | none => none
      | some (txo, used) => unpackTxOutputsLoop buf k (l + used) (txo :: acc)

/-- The Go source's `unpackTxAddresses`: height varuint, input count and
records, output count and records.  The Go function has no error return
at all: on a malformed buffer it either mis-decodes or panics (`none`). -/
def unpackTxAddressesGo (buf : List Nat) :
    Option (Nat × List (List Nat × Nat) × List (List Nat × Bool × Nat)) :=
  let p1 := unpackVaruint buf
  let height := p1.1 % 2 ^ 32
  match sliceGo buf p1.2 buf.length with
  | none => none
  | some sub1 =>
    let p2 := unpackVaruint sub1
    match unpackTxInputsLoop buf p2.1 (p1.2 + p2.2) [] with
    | none => none
    | some (ins, l2) =>
      match sliceGo buf l2 buf.length with
      | none => none
      | some sub2 =>
        let p3 := unpackVaruint sub2
        match unpackTxOutputsLoop buf p3.1 (l2 + p3.2) [] with
        | none => none
        | some (outs, _) => some (height, ins, outs)

/-- The loop of `unpackNOutpoints`: `n` outpoints of `pl` txid bytes and
a varint32 index each; `some (.error ())` is its
`Inconsistent data in unpackNOutpoints` return. -/
def unpackNOutpointsLoop (pl : Nat) (buf : List Nat) :
    Nat → Int → List (List Nat × Int) →
      Option (Except Unit (List (List Nat × Int) × Int))
  | 0, p, acc => some (.ok (acc.reverse, p))
  | k + 1, p, acc =>
    if (buf.length : Int) ≤ p + (pl : Int) then some (.error ())
    else
      match sliceGo buf p (p + (pl : Int)) with
      | none => none
      | some btxID =>
        let p2 := p + (pl : Int)
        match sliceGo buf p2 buf.length with
        | none => none
        | some sub =>
          let q := unpackVarint32 sub
          unpackNOutpointsLoop pl buf k (p2 + q.2) ((btxID, q.1) :: acc)

/-- The Go source's `unpackNOutpoints` for a parser with packed-txid
length `pl`. -/
def unpackNOutpointsGo (pl : Nat) (buf : List Nat) :
    Option (Except Unit (List (List Nat × Int) × Int)) :=
  let p := unpackVaruint buf
  unpackNOutpointsLoop pl buf p.1 p.2 []

/-- The decode loop of `getBlockTxs`: while `i < len(buf)`, read `pl`
txid bytes and an `unpackNOutpoints` group.  The fuel only bounds the
recursion; on well-formed data every iteration consumes at least one
byte, so `buf.length + 1` iterations always reach the end (an
adversarial buffer can make the Go loop run without progressing, which
the exhausted fuel reports as `none` like the other non-results). -/
def getBlockTxsLoop (pl : Nat) (buf : List Nat) :
    Nat → Int → List (List Nat × List (List Nat × Int)) →
      Option (Except Unit (List (List Nat × List (List Nat × Int))))
  | 0, _, _ => none
  | fuel + 1, i, acc =>
    if i < (buf.length : Int) then
      if (buf.length : Int) - i < (pl : Int) then some (.error ())
      else
        match sliceGo buf i buf.length with
        | none => none
        | some sub =>
          let txid := sub.take pl
          let i2 := i + (pl : Int)
          match sliceGo buf i2 buf.length with
          | none => none
          | some sub2 =>
            match unpackNOutpointsGo pl sub2 with
            | none => none
            | some (.error e) => some (.error e)
            | some (.ok (o, ol)) => getBlockTxsLoop pl buf fuel (i2 + ol) ((txid, o) :: acc)
    else some (.ok acc.reverse)

/-- The value-decoding part of the Go source's `getBlockTxs` (the
`blockTxs` column read itself is modelled where the function is used). -/
def getBlockTxsGo (pl : Nat) (buf : List Nat) :
    Option (Except Unit (List (List Nat × List (List Nat × Int)))) :=
  getBlockTxsLoop pl buf (buf.length + 1) 0 []

/-- The boundary at which `unpackBigint` is safe: it returns a value
exactly when the buffer is non-empty and holds the bytes its length
prefix promises; otherwise the Go code indexes or slices out of
bounds. -/
theorem unpackBigint_isSome_iff (buf : List Nat) :
    (unpackBigint buf).isSome = true ↔ buf ≠ [] ∧ buf.headD 0 + 1 ≤ buf.length := by
  cases buf with
  | nil => simp [unpackBigint]
  | cons b rest =>
    simp only [unpackBigint, List.headD_cons, List.length_cons, ne_eq, reduceCtorEq,
      not_false_eq_true, true_and]
    by_cases h : b ≤ rest.length
    · rw [if_pos h]
      simp
      omega
    · rw [if_neg h]
      simp
      omega

/-! ## Structured data model

The connect/disconnect orchestration is embedded over a structured view
of the column families: the `blockTxs` column keeps its raw bytes (its
emptiness test and decode drive control flow), while the `txAddresses`
and `addressBalance` columns are modelled at the granularity of their
decoded records — their byte codecs (`packTxAddresses` /
`unpackTxAddresses`, `packBigint` / `unpackBigint`, `packVaruint` /
`unpackVaruint`) are the codec layer above.  Go maps become association
lists (iteration in insertion order; the Go iteration order is
unspecified, and every per-key write below goes to a distinct key). -/

/-- An address descriptor: opaque bytes, at most `maxAddrDescLen`. -/
abbrev Addr := List Nat

/-- A packed transaction id: fixed-length bytes from the parser. -/
abbrev BTxid := List Nat

/-- The source constant `maxAddrDescLen`. -/
def maxAddrDescLen : Nat := 1024

/-- A transaction input of the incoming block (`bchain.Vin`): the
referenced txid (modelled as an opaque token for the parser to pack)
and output index. -/
structure VinS where
  txid : Nat
  vout : Nat
deriving DecidableEq, Repr

/-- A transaction output of the incoming block (`bchain.Vout`). -/
structure VoutS where
  n : Nat
  valueSat : Int
  script : Nat
deriving DecidableEq, Repr

/-- A transaction of the incoming block (`bchain.Tx`). -/
structure TxS where
  txid : Nat
  vin : List VinS
  vout : List VoutS
deriving DecidableEq, Repr

/-- An incoming block (`bchain.Block`). -/
structure BlockS where
  height : Nat
  hash : Nat
  time : Int
  size : Nat
  txs : List TxS
deriving DecidableEq, Repr

/-- Outcome kinds of `chainParser.PackTxid`: `bchain.ErrTxidMissing` is
skipped at some call sites, any other error aborts. -/
inductive PackErr
  | missing
  | other
deriving DecidableEq, Repr

/-- The `bchain.BlockChainParser` capability, restricted to what the
embedded paths consume. -/
structure ParserS where
  packTxid : Nat → Except PackErr BTxid
  getAddrDescFromVout : VoutS → Except Unit Addr
  packBlockHash : Nat → Except Unit (List Nat)
  packedTxidLen : Nat
  keepBlockAddresses : Nat

/-- A decoded `addressBalance` record. -/
structure AddrBalanceS where
  txs : Nat
  sentSat : Int
  balanceSat : Int
deriving DecidableEq, Repr

/-- A decoded tx-addresses input. -/
structure TxInputS where
  addrDesc : Addr
  valueSat : Int
deriving DecidableEq, Repr

/-- A decoded tx-addresses output with its spent flag. -/
structure TxOutputS where
  addrDesc : Addr
  spent : Bool
  valueSat : Int
deriving DecidableEq, Repr

/-- A decoded `txAddresses` record. -/
structure TxAddressesS where
  height : Nat
  inputs : List TxInputS
  outputs : List TxOutputS
deriving DecidableEq, Repr

instance : Inhabited TxAddressesS := ⟨⟨0, [], []⟩⟩

/-- An outpoint as kept in the working maps: packed txid and int32
index (`^i` marks inputs). -/
structure OutpointS where
  btxID : BTxid
  index : Int
deriving DecidableEq, Repr

/-- Association-list lookup, the `v, ok := m[k]` of a Go map. -/
def alistLookup {β : Type} : List (List Nat × β) → List Nat → Option β
  | [], _ => none
  | (k2, v) :: t, k => if k2 = k then some v else alistLookup t k

/-- Association-list insert/replace, the `m[k] = v` of a Go map. -/
def alistInsert {β : Type} : List (List Nat × β) → List Nat → β → List (List Nat × β)
  | [], k, v => [(k, v)]
  | (k2, v2) :: t, k, v =>
    if k2 = k then (k, v) :: t else (k2, v2) :: alistInsert t k v

/-- The column families as the orchestrator sees them.  `blockTxs` maps
a height to the raw stored bytes, `[]` being absent (a RocksDB `GetCF`
miss yields an empty slice, which is also how the source tests
presence). -/
structure Db where
  height : Nat → Option (List Nat)
  addresses : List Nat → Option (List Nat)
  txAddresses : BTxid → Option TxAddressesS
  addressBalance : Addr → Option AddrBalanceS
  blockTxs : Nat → List Nat
  transactions : BTxid → Option (List Nat)

/-- A reference held in the per-block `txAddressesMap`: a pointer to a
record of the block being connected (`blockTxAddresses[i]`), or a
record loaded from the `txAddresses` column. -/
inductive TxRef
  | inBlock (i : Nat)
  | ext (ta : TxAddressesS)
deriving DecidableEq, Repr

/-- The working state of `processAddressesUTXO`: `blockTxIDs`,
`blockTxAddresses` (as `recs`, aliased into `txAddressesMap` through
`TxRef.inBlock`), and the three working maps. -/
structure ConnState where
  blockTxIDs : List BTxid
  recs : List TxAddressesS
  txAddressesMap : List (BTxid × TxRef)
  addresses : List (Addr × List OutpointS)
  balances : List (Addr × AddrBalanceS)
deriving DecidableEq, Repr

/-- The Go source's `processedInTx`: whether an outpoint of `btxID` is
already recorded for the address. -/
def processedInTx (o : List OutpointS) (btxID : BTxid) : Bool :=
  o.any fun op => op.btxID = btxID

/-- Pointer dereference of a `txAddressesMap` entry. -/
def derefTxRef (st : ConnState) (r : TxRef) : Option TxAddressesS :=
  match r with
  | .inBlock j => st.recs.get? j
  | .ext ta => some ta

/-- Write through a pointer to `recs[txi].Outputs[i]` (in range at every
reachable call site, as in the source). -/
def updateRecOutput (recs : List TxAddressesS) (txi i : Nat) (f : TxOutputS → TxOutputS) :
    List TxAddressesS :=
  match recs.get? txi with
  | none => recs
  | some r =>
    match r.outputs.get? i with
    | none => recs
    | some o => recs.set txi { r with outputs := r.outputs.set i (f o) }

/-- Write through a pointer to `recs[txi].Inputs[i]`. -/
def updateRecInput (recs : List TxAddressesS) (txi i : Nat) (v : TxInputS) :
    List TxAddressesS :=
  match recs.get? txi with
  | none => recs
  | some r => recs.set txi { r with inputs := r.inputs.set i v }

/-- Replace the whole input list of `recs[txi]`
(`ta.Inputs = make([]TxInput, len(tx.Vin))`). -/
def setRecInputs (recs : List TxAddressesS) (txi : Nat) (ins : List TxInputS) :
    List TxAddressesS :=
  match recs.get? txi with
  | none => recs
  | some r => recs.set txi { r with inputs := ins }

/-- Set the spent flag on output `vout` of a record. -/
def taSetOutputSpent (ta : TxAddressesS) (vout : Nat) : TxAddressesS :=
  match ta.outputs.get? vout with
  | none => ta
  | some o => { ta with outputs := ta.outputs.set vout { o with spent := true } }

/-- `ot.Spent = true` through the `txAddressesMap` pointer. -/
def setRefOutputSpent (st : ConnState) (key : BTxid) (r : TxRef) (vout : Nat) : ConnState :=
  match r with
  | .inBlock j => { st with recs := updateRecOutput st.recs j vout fun o => { o with spent := true } }
  | .ext ta =>
    { st with txAddressesMap := alistInsert st.txAddressesMap key (.ext (taSetOutputSpent ta vout)) }

/-! ## `processAddressesUTXO` -/

/-- The balance a `processAddressesUTXO` update starts from: the
working-map entry if present, else the stored balance, else a fresh
zero one (`if ab == nil, ab = &AddrBalance{}`). -/
def loadedBalance (db : Db) (bal : List (Addr × AddrBalanceS)) (a : Addr) : AddrBalanceS :=
  match alistLookup bal a with
  | some ab => ab
  | none => (db.addressBalance a).getD ⟨0, 0, 0⟩

/-- `if !processed { ab.Txs++ }`: count the transaction for the address
once. -/
def bumpTxs (processed : Bool) (ab : AddrBalanceS) : AddrBalanceS :=
  if processed then ab else { ab with txs := (ab.txs + 1) % 2 ^ 32 }

/-- `ab.BalanceSat.Add(&output.ValueSat)`. -/
def addToBalance (ab : AddrBalanceS) (value : Int) : AddrBalanceS :=
  { ab with balanceSat := ab.balanceSat + value }

/-- `ab.BalanceSat.Sub(&ot.ValueSat)` with the negative result reset to
zero, then `ab.SentSat.Add(&ot.ValueSat)`. -/
def subFromBalance (ab : AddrBalanceS) (value : Int) : AddrBalanceS :=
  let bal := ab.balanceSat - value
  let bal := if bal < 0 then 0 else bal
  { ab with balanceSat := bal, sentSat := ab.sentSat + value }

/-- An output whose descriptor is skipped: only the value is stored in
the record. -/
def connectOutputSkip (txi i : Nat) (value : Int) (st : ConnState) : ConnState :=
  { st with recs := updateRecOutput st.recs txi i fun o => { o with valueSat := value } }

/-- An output with a usable descriptor: store value and descriptor in
the record, append the `(btxID, i)` outpoint (`int32(i)`: every real
block has far fewer than `2^31` outputs), and update the balance,
counting `Txs` only on the first touch of the address in this
transaction. -/
def connectOutputGood (db : Db) (btxID : BTxid) (txi i : Nat) (value : Int) (addrDesc : Addr)
    (st : ConnState) : ConnState :=
  let recs2 := updateRecOutput
    (updateRecOutput st.recs txi i fun o => { o with valueSat := value })
    txi i fun o => { o with addrDesc := addrDesc }
  let o := alistLookup st.addresses addrDesc
  let processed := match o with
    | none => false
    | some ops => processedInTx ops btxID
  let addresses2 := alistInsert st.addresses addrDesc
    (o.getD [] ++ [(⟨btxID, (i : Int)⟩ : OutpointS)])
  let ab := addToBalance (bumpTxs processed (loadedBalance db st.balances addrDesc)) value
  let balances2 := alistInsert st.balances addrDesc ab
  { st with recs := recs2, addresses := addresses2, balances := balances2 }

/-- One output of the first pass of `processAddressesUTXO`: store the
value into the record; skip indexing when the descriptor fails to
decode, is empty or longer than `maxAddrDescLen`. -/
def connectOutputStep (P : ParserS) (db : Db) (btxID : BTxid) (txi i : Nat) (output : VoutS)
    (st : ConnState) : ConnState :=
  match P.getAddrDescFromVout output with
  | .error _ => connectOutputSkip txi i output.valueSat st
  | .ok addrDesc =>
    if addrDesc.length = 0 ∨ maxAddrDescLen < addrDesc.length then
      connectOutputSkip txi i output.valueSat st
    else connectOutputGood db btxID txi i output.valueSat addrDesc st

/-- Fold of `connectOutputStep` over the enumerated outputs of one
transaction. -/
def connectOutputsFold (P : ParserS) (db : Db) (btxID : BTxid) (txi : Nat) :
    Nat → List VoutS → ConnState → ConnState
  | _, [], st => st
  | i, output :: rest, st =>
    connectOutputsFold P db btxID txi (i + 1) rest (connectOutputStep P db btxID txi i output st)

/-- First pass of `processAddressesUTXO` for one transaction: pack the
txid (any failure aborts the block), create the record seeded with the
height and zeroed outputs, publish it in `txAddressesMap`, then process
the outputs. -/
def connectTxOutputs (P : ParserS) (db : Db) (bheight txi : Nat) (tx : TxS)
    (st : ConnState) : Except Unit ConnState :=
  match P.packTxid tx.txid with
  | .error _ => .error ()
  | .ok btxID =>
    let ta : TxAddressesS :=
      { height := bheight, inputs := [], outputs := tx.vout.map fun _ => (⟨[], false, 0⟩ : TxOutputS) }
    let st := { st with
      blockTxIDs := st.blockTxIDs ++ [btxID],
      recs := st.recs ++ [ta],
      txAddressesMap := alistInsert st.txAddressesMap btxID (.inBlock txi) }
    .ok (connectOutputsFold P db btxID txi 0 tx.vout st)

/-- The whole first pass. -/
def connectOutputsLoop (P : ParserS) (db : Db) (bheight : Nat) :
    Nat → List TxS → ConnState → Except Unit ConnState
  | _, [], st => .ok st
  | txi, tx :: rest, st =>
    match connectTxOutputs P db bheight txi tx st with
    | .error e => .error e
    | .ok st2 => connectOutputsLoop P db bheight (txi + 1) rest st2

/-- The indexed part of one input with a resolved, non-empty address:
append the `(spendingTxid, ^i)` outpoint and move `value` from balance
(clamping at zero) to sent, counting `Txs` once per address per
transaction. -/
def connectInputGood (db : Db) (spendingTxid : BTxid) (i : Nat) (addr : Addr) (value : Int)
    (st : ConnState) : ConnState :=
  let o := alistLookup st.addresses addr
  let processed := match o with
    | none => false
    | some ops => processedInTx ops spendingTxid
  let addresses2 := alistInsert st.addresses addr
    (o.getD [] ++ [(⟨spendingTxid, -(i : Int) - 1⟩ : OutpointS)])
  let ab := subFromBalance (bumpTxs processed (loadedBalance db st.balances addr)) value
  { st with addresses := addresses2, balances := alistInsert st.balances addr ab }

/-- One resolved input of the second pass: bounds-check `vout`, copy
the referenced output into the input record, set its spent flag (a
double spend only logs), and — unless the referenced output has no
address — index it and move the balance. -/
def connectInputApply (db : Db) (spendingTxid : BTxid) (txi i : Nat) (btxID : BTxid)
    (r : TxRef) (input : VinS) (st1 : ConnState) : ConnState :=
  match derefTxRef st1 r with
  | none => st1
  | some ita =>
    if ita.outputs.length ≤ input.vout then st1
    else
      match ita.outputs.get? input.vout with
      | none => st1
      | some ot =>
        let st2 := { st1 with
          recs := updateRecInput st1.recs txi i ⟨ot.addrDesc, ot.valueSat⟩ }
        let st3 := setRefOutputSpent st2 btxID r input.vout
        if ot.addrDesc.length = 0 then st3
        else connectInputGood db spendingTxid i ot.addrDesc ot.valueSat st3

/-- One input of the second pass: resolve the referenced record from
the working map or the store, skipping a missing input txid or an
unknown referenced tx (any other txid pack error aborts). -/
def connectInputStep (P : ParserS) (db : Db) (spendingTxid : BTxid) (txi i : Nat)
    (input : VinS) (st : ConnState) : Except Unit ConnState :=
  match P.packTxid input.txid with
  | .error .missing => .ok st
  | .error .other => .error ()
  | .ok btxID =>
    match alistLookup st.txAddressesMap btxID with
    | some r => .ok (connectInputApply db spendingTxid txi i btxID r input st)
    | none =>
      match db.txAddresses btxID with
      | none => .ok st
      | some ita =>
        .ok (connectInputApply db spendingTxid txi i btxID (.ext ita) input
          { st with txAddressesMap := alistInsert st.txAddressesMap btxID (.ext ita) })

/-- Fold of `connectInputStep` over the enumerated inputs of one
transaction. -/
def connectInputsFold (P : ParserS) (db : Db) (spendingTxid : BTxid) (txi : Nat) :
    Nat → List VinS → ConnState → Except Unit ConnState
  | _, [], st => .ok st
  | i, input :: rest, st =>
    match connectInputStep P db spendingTxid txi i input st with
    | .error e => .error e
    | .ok st2 => connectInputsFold P db spendingTxid txi (i + 1) rest st2

/-- Second pass of `processAddressesUTXO` for one transaction. -/
def connectTxInputs (P : ParserS) (db : Db) (txi : Nat) (tx : TxS)
    (st : ConnState) : Except Unit ConnState :=
  let spendingTxid := st.blockTxIDs.getD txi []
  let st := { st with recs := setRecInputs st.recs txi (tx.vin.map fun _ => (⟨[], 0⟩ : TxInputS)) }
  connectInputsFold P db spendingTxid txi 0 tx.vin st

/-- The whole second pass. -/
def connectInputsLoop (P : ParserS) (db : Db) :
    Nat → List TxS → ConnState → Except Unit ConnState
  | _, [], st => .ok st
  | txi, tx :: rest, st =>
    match connectTxInputs P db txi tx st with
    | .error e => .error e
    | .ok st2 => connectInputsLoop P db (txi + 1) rest st2

/-- The Go source's `processAddressesUTXO`: the outputs pass over every
transaction, then the inputs pass. -/
def processAddressesUTXO (P : ParserS) (db : Db) (block : BlockS) : Except Unit ConnState :=
  match connectOutputsLoop P db block.height 0 block.txs ⟨[], [], [], [], []⟩ with
  | .error e => .error e
  | .ok st => connectInputsLoop P db 0 block.txs st

/-! ## Store phase, write batch, and `writeBlock` (connect) -/

/-- One operation recorded in a `gorocksdb.WriteBatch`.  Heights stand
for their verified-injective `packUint` keys. -/
inductive BatchOp
  | putAddresses (key : List Nat) (val : List Nat)
  | deleteAddresses (key : List Nat)
  | putTxAddresses (key : BTxid) (val : TxAddressesS)
  | deleteTxAddresses (key : BTxid)
  | putBalance (key : Addr) (val : AddrBalanceS)
  | deleteBalance (key : Addr)
  | putBlockTxs (height : Nat) (val : List Nat)
  | deleteBlockTxs (height : Nat)
  | putHeight (height : Nat) (val : List Nat)
  | deleteHeight (height : Nat)
  | deleteTransactions (key : BTxid)
deriving DecidableEq, Repr

/-- Apply one batched operation to the store. -/
def applyOp (db : Db) : BatchOp → Db
  | .putAddresses k v => { db with addresses := fun x => if x = k then some v else db.addresses x }
  | .deleteAddresses k => { db with addresses := fun x => if x = k then none else db.addresses x }
  | .putTxAddresses k v =>
    { db with txAddresses := fun x => if x = k then some v else db.txAddresses x }
  | .deleteTxAddresses k =>
    { db with txAddresses := fun x => if x = k then none else db.txAddresses x }
  | .putBalance k v =>
    { db with addressBalance := fun x => if x = k then some v else db.addressBalance x }
  | .deleteBalance k =>
    { db with addressBalance := fun x => if x = k then none else db.addressBalance x }
  | .putBlockTxs h v => { db with blockTxs := fun x => if x = h then v else db.blockTxs x }
  | .deleteBlockTxs h => { db with blockTxs := fun x => if x = h then [] else db.blockTxs x }
  | .putHeight h v => { db with height := fun x => if x = h then some v else db.height x }
  | .deleteHeight h => { db with height := fun x => if x = h then none else db.height x }
  | .deleteTransactions k =>
    { db with transactions := fun x => if x = k then none else db.transactions x }

/-- `d.db.Write(d.wo, wb)`: the atomic commit of a batch. -/
def applyBatch (db : Db) (wb : List BatchOp) : Db := wb.foldl applyOp db

/-- The Go source's `packOutpoints`: packed txid followed by the varint32
index, for each outpoint. -/
def packOutpoints (outpoints : List OutpointS) : List Nat :=
  (outpoints.map fun o => o.btxID ++ packVarint32 o.index).flatten

/-- The Go source's `storeAddresses`: one `addresses`-column put per
touched address, keyed by `packAddressKey`. -/
def storeAddresses (height : Nat) (addresses : List (Addr × List OutpointS)) : List BatchOp :=
  addresses.map fun p => .putAddresses (packAddressKey p.1 height) (packOutpoints p.2)

/-- The Go source's `storeTxAddresses` on the connect working map: one
`txAddresses`-column put per record (through the `TxRef` pointers; the
`.getD` default is unreachable, every `inBlock` index is in range). -/
def storeTxAddressesConn (st : ConnState) : List BatchOp :=
  st.txAddressesMap.map fun p => .putTxAddresses p.1 ((derefTxRef st p.2).getD default)

/-- The Go source's `storeBalances` on the connect working map: a
balance with no transactions is deleted, any other is written. -/
def storeBalances (abm : List (Addr × AddrBalanceS)) : List BatchOp :=
  abm.map fun p => if p.2.txs = 0 then .deleteBalance p.1 else .putBalance p.1 p.2

/-- `int32(vin.Vout)` for the uint32 `Vout`. -/
def int32OfUint32 (n : Nat) : Int :=
  if n % 2 ^ 32 < 2 ^ 31 then (n % 2 ^ 32 : Int) else (n % 2 ^ 32 : Int) - 2 ^ 32

/-- The per-transaction outpoint list built by
`storeAndCleanupBlockTxs`: a missing input txid packs as `zeroTx`, any
other pack error aborts. -/
def vinOutpoints (P : ParserS) (pl : Nat) : List VinS → Except Unit (List OutpointS)
  | [] => .ok []
  | vin :: rest =>
    match P.packTxid vin.txid with
    | .error .missing =>
      (vinOutpoints P pl rest).map fun os =>
        ⟨List.replicate pl 0, int32OfUint32 vin.vout⟩ :: os
    | .error .other => .error ()
    | .ok b => (vinOutpoints P pl rest).map fun os => ⟨b, int32OfUint32 vin.vout⟩ :: os

/-- The `blockTxs` value assembled by `storeAndCleanupBlockTxs`: for
each transaction, packed txid, varuint input count, packed outpoints. -/
def blockTxsBufLoop (P : ParserS) (pl : Nat) : List TxS → List Nat → Except Unit (List Nat)
  | [], buf => .ok buf
  | tx :: rest, buf =>
    match vinOutpoints P pl tx.vin with
    | .error e => .error e
    | .ok o =>
      match P.packTxid tx.txid with
      | .error _ => .error ()
      | .ok btxID =>
        blockTxsBufLoop P pl rest (buf ++ btxID ++ packVaruint o.length ++ packOutpoints o)

/-- The cleanup loop of `storeAndCleanupBlockTxs`:
`for rh := H - keep; rh < H; rh--`, reading each entry, stopping at the
first missing (empty) one, and deleting the others **directly on the
database** (`d.db.DeleteCF(d.wo, ...)`), not through the batch.  The
`rh = 0` case is the loop exit by uint32 wrap-around: `rh--` yields
`2^32 - 1`, which is never `< H` for a uint32 height. -/
def cleanupGo (H : Nat) : Nat → (Nat → List Nat) → Nat → List Nat
  | rh, col =>
    if rh < H then
      if (col rh).isEmpty then col
      else
        let col2 : Nat → List Nat := fun x => if x = rh then [] else col x
        match rh with
        | 0 => col2
        | r + 1 => cleanupGo H r col2
    else col

/-- The Go source's `storeAndCleanupBlockTxs`: put the new record into
the batch, then delete entries older than the retention window with
immediate database deletes. -/
def storeAndCleanupBlockTxs (P : ParserS) (wb : List BatchOp) (db : Db) (block : BlockS) :
    Except Unit (List BatchOp × Db) :=
  match blockTxsBufLoop P P.packedTxidLen block.txs [] with
  | .error e => .error e
  | .ok buf =>
    let wb2 := wb ++ [.putBlockTxs block.height buf]
    let keep := P.keepBlockAddresses
    let db2 :=
      if keep < block.height then
        { db with blockTxs := cleanupGo block.height (block.height - keep) db.blockTxs }
      else db
    .ok (wb2, db2)

/-- The Go source's `packBlockInfo`: packed block hash, big-endian
uint32 time, varuint tx count and size. -/
def packBlockInfo (P : ParserS) (block : BlockS) : Except Unit (List Nat) :=
  match P.packBlockHash block.hash with
  | .error e => .error e
  | .ok b =>
    .ok (b ++ packUint (uint64OfInt block.time % 2 ^ 32)
      ++ packVaruint (block.txs.length % 2 ^ 32) ++ packVaruint (block.size % 2 ^ 32))

/-- `writeHeightFromBlock` with `op = opInsert`: one `height`-column
put (the in-memory best-height update touches no column family). -/
def writeHeightFromBlockConnect (P : ParserS) (block : BlockS) : Except Unit BatchOp :=
  (packBlockInfo P block).map fun v => .putHeight block.height v

/-- The Go source's `writeBlock` with `op = opInsert` on a UTXO chain
(`ConnectBlock` up to the final commit): the returned batch holds every
batched mutation, and the returned database state carries the direct
deletes the cleanup loop has already applied when the commit runs. -/
def writeBlockConnect (P : ParserS) (db : Db) (block : BlockS) :
    Except Unit (List BatchOp × Db) :=
  match writeHeightFromBlockConnect P block with
  | .error e => .error e
  | .ok op0 =>
    match processAddressesUTXO P db block with
    | .error e => .error e
    | .ok st =>
      let wb := [op0]
      let wb := wb ++ storeAddresses block.height st.addresses
      let wb := wb ++ storeTxAddressesConn st
      let wb := wb ++ storeBalances st.balances
      storeAndCleanupBlockTxs P wb db block

/-- `ConnectBlock`: `writeBlock` followed by the batch commit. -/
def connectBlock (P : ParserS) (db : Db) (block : BlockS) : Except Unit Db :=
  (writeBlockConnect P db block).map fun r => applyBatch r.2 r.1

/-- What the cleanup loop does to the `blockTxs` column, pointwise: an
entry is deleted exactly when it sits at or below the loop start and
every entry from it up to the start is present. -/
theorem cleanupGo_spec (H : Nat) : ∀ rh col x, cleanupGo H rh col x =
    if x ≤ rh ∧ rh < H ∧ (∀ y, x ≤ y → y ≤ rh → col y ≠ []) then [] else col x := by
  intro rh
  induction rh with
  | zero =>
    intro col x
    unfold cleanupGo
    by_cases hH : 0 < H
    · rw [if_pos hH]
      by_cases hempty : (col 0).isEmpty
      · have hc0 : col 0 = [] := List.isEmpty_iff.mp hempty
        rw [if_pos hempty]
        rw [if_neg]
        rintro ⟨hx0, -, hall⟩
        exact hall 0 (by omega) (by omega) hc0
      · rw [if_neg hempty]
        by_cases hx : x = 0
        · subst hx
          have hcond : (0 : Nat) ≤ 0 ∧ 0 < H ∧ ∀ y, 0 ≤ y → y ≤ 0 → col y ≠ [] := by
            refine ⟨le_refl _, hH, ?_⟩
            intro y h1 h2
            have hy : y = 0 := by omega
            subst hy
            exact fun hc => hempty (by simp [hc])
          rw [if_pos hcond]
          simp
        · have hxpos : ¬x ≤ 0 := by omega
          rw [if_neg (by tauto)]
          simp [hx]
    · rw [if_neg hH, if_neg (by omega)]
  | succ r ih =>
    intro col x
    unfold cleanupGo
    by_cases hH : r + 1 < H
    · rw [if_pos hH]
      by_cases hempty : (col (r + 1)).isEmpty
      · have hcr : col (r + 1) = [] := List.isEmpty_iff.mp hempty
        rw [if_pos hempty]
        rw [if_neg]
        rintro ⟨hx, -, hall⟩
        exact hall (r + 1) hx (le_refl _) hcr
      · rw [if_neg hempty]
        have hcr : col (r + 1) ≠ [] := fun hc => hempty (by simp [hc])
        show cleanupGo H r (fun z => if z = r + 1 then [] else col z) x = _
        rw [ih]
        by_cases hcond : x ≤ r ∧ (∀ y, x ≤ y → y ≤ r →
            (fun z => if z = r + 1 then [] else col z) y ≠ [])
        · have hcond2 : x ≤ r ∧ r < H ∧ ∀ y, x ≤ y → y ≤ r →
              (fun z => if z = r + 1 then [] else col z) y ≠ [] :=
            ⟨hcond.1, by omega, hcond.2⟩
          rw [if_pos hcond2, if_pos]
          refine ⟨by omega, hH, ?_⟩
          intro y h1 h2
          by_cases hy : y = r + 1
          · subst hy; exact hcr
          · have := hcond.2 y h1 (by omega)
            simpa [hy] using this
        · rw [if_neg (by tauto)]
          by_cases hx : x = r + 1
          · subst hx
            have hcond2 : r + 1 ≤ r + 1 ∧ r + 1 < H ∧
                ∀ y, r + 1 ≤ y → y ≤ r + 1 → col y ≠ [] := by
              refine ⟨le_refl _, hH, ?_⟩
              intro y h1 h2
              have hy : y = r + 1 := by omega
              subst hy
              exact hcr
            rw [if_pos hcond2]
            simp
          · simp only [if_neg hx]
            rw [if_neg]
            rintro ⟨h1, -, hall⟩
            have h1r : x ≤ r := by omega
            apply hcond
            refine ⟨h1r, ?_⟩
            intro y hy1 hy2
            have hyne : y ≠ r + 1 := by omega
            have := hall y hy1 (by omega)
            simpa [hyne] using this
    · rw [if_neg hH, if_neg (by omega)]

/-! ## Disconnect (`disconnectTxAddresses`, `DisconnectBlockRangeUTXO`) -/

/-- The state threaded through a range disconnect: the write batch and
the three accumulator maps.  `txAddressesToUpdate` and `balances` hold
`Option` values because the Go maps hold pointers that can be `nil`. -/
structure DiscState where
  wb : List BatchOp
  txAddressesToUpdate : List (BTxid × Option TxAddressesS)
  balances : List (Addr × Option AddrBalanceS)
  txsToDelete : List BTxid
deriving Repr

/-- The `getAddressBalance` closure of `disconnectTxAddresses`: consult
the cache, else load from the store and cache the result — a `nil`
included. -/
def discGetBalance (db : Db) (balances : List (Addr × Option AddrBalanceS)) (a : Addr) :
    Option AddrBalanceS × List (Addr × Option AddrBalanceS) :=
  match alistLookup balances a with
  | some b => (b, balances)
  | none => (db.addressBalance a, alistInsert balances a (db.addressBalance a))

instance : Inhabited TxOutputS := ⟨⟨[], false, 0⟩⟩

/-- `if !exist { ab.Txs-- }` on a uint32: uncount the transaction on
the first touch of the address. -/
def decTxs (exist : Bool) (bb : AddrBalanceS) : AddrBalanceS :=
  if exist then bb else { bb with txs := (bb.txs + 2 ^ 32 - 1) % 2 ^ 32 }

/-- The balance part of undoing one input: decrement `Txs` on the first
touch, move the value back from `SentSat` (clamping at zero) to
`BalanceSat`; a `nil` stored balance only logs. -/
def discUndoInputBalance (db : Db) (exist : Bool) (t : TxInputS)
    (balances : List (Addr × Option AddrBalanceS)) : List (Addr × Option AddrBalanceS) :=
  match discGetBalance db balances t.addrDesc with
  | (none, m2) => m2
  | (some bb, m2) =>
    let bb := decTxs exist bb
    let sent := bb.sentSat - t.valueSat
    let sent := if sent < 0 then 0 else sent
    alistInsert m2 t.addrDesc
      (some { bb with sentSat := sent, balanceSat := bb.balanceSat + t.valueSat })

/-- Clear the spent flag on the outpoint spent by an input: load the
spent transaction record into the cache and flip `Spent` off.  `none`
models the Go panics: a `nil` record or an out-of-range outpoint
index. -/
def discClearSpent (db : Db) (inp : OutpointS) (st2 : DiscState) : Option DiscState :=
  match
    (match alistLookup st2.txAddressesToUpdate inp.btxID with
     | some sa => (sa, st2.txAddressesToUpdate)
     | none =>
       (db.txAddresses inp.btxID,
        alistInsert st2.txAddressesToUpdate inp.btxID (db.txAddresses inp.btxID))) with
  | (none, _) => none
  | (some sarec, m2) =>
    if inp.index < 0 then none
    else if sarec.outputs.length ≤ inp.index.toNat then none
    else
      let o2 := match sarec.outputs.get? inp.index.toNat with
        | some o => { o with spent := false }
        | none => default
      let sa2 := { sarec with outputs := sarec.outputs.set inp.index.toNat o2 }
      some { st2 with txAddressesToUpdate := alistInsert m2 inp.btxID (some sa2) }

/-- The input loop of `disconnectTxAddresses`: per input with an
address, count the address once, undo the sent/balance movement
(clamping `sent` at zero), and clear the spent flag on the spender's
recorded outpoint.  `none` models the Go panics: `inputs[i]` out of
range, a `nil` tx-addresses record, or an out-of-range outpoint
index. -/
def discInputsLoop (db : Db) (inputs : List OutpointS) :
    Nat → List TxInputS → List Addr → DiscState → Option (List Addr × DiscState)
  | _, [], seen, st => some (seen, st)
  | i, t :: rest, seen, st =>
    if t.addrDesc.length = 0 then discInputsLoop db inputs (i + 1) rest seen st
    else
      let exist := seen.any fun a => a = t.addrDesc
      let seen2 := if exist then seen else seen ++ [t.addrDesc]
      let st2 := { st with balances := discUndoInputBalance db exist t st.balances }
      match inputs.get? i with
      | none => none
      | some inp =>
        match discClearSpent db inp st2 with
        | none => none
        | some st3 => discInputsLoop db inputs (i + 1) rest seen2 st3

/-- The balance part of undoing one output: decrement `Txs` on the
first touch and subtract the value from `BalanceSat`, clamping at
zero. -/
def discUndoOutputBalance (db : Db) (exist : Bool) (t : TxOutputS)
    (balances : List (Addr × Option AddrBalanceS)) : List (Addr × Option AddrBalanceS) :=
  match discGetBalance db balances t.addrDesc with
  | (none, m2) => m2
  | (some bb, m2) =>
    let bb := decTxs exist bb
    let bal := bb.balanceSat - t.valueSat
    let bal := if bal < 0 then 0 else bal
    alistInsert m2 t.addrDesc (some { bb with balanceSat := bal })

/-- The output loop of `disconnectTxAddresses`: per output with an
address, count the address once and undo the balance credit, clamping
at zero. -/
def discOutputsLoop (db : Db) :
    List TxOutputS → List Addr → DiscState → List Addr × DiscState
  | [], seen, st => (seen, st)
  | t :: rest, seen, st =>
    if t.addrDesc.length = 0 then discOutputsLoop db rest seen st
    else
      let exist := seen.any fun a => a = t.addrDesc
      let seen2 := if exist then seen else seen ++ [t.addrDesc]
      discOutputsLoop db rest seen2
        { st with balances := discUndoOutputBalance db exist t st.balances }

/-- The Go source's `disconnectTxAddresses`: undo the inputs, undo the
outputs, and batch the deletion of each touched `(address, height)`
index key. -/
def disconnectTxAddresses (db : Db) (height : Nat) (inputs : List OutpointS)
    (txa : TxAddressesS) (st : DiscState) : Option DiscState :=
  match discInputsLoop db inputs 0 txa.inputs [] st with
  | none => none
  | some (seen1, st1) =>
    let p := discOutputsLoop db txa.outputs seen1 st1
    some { p.2 with
      wb := p.2.wb ++ p.1.map fun a => .deleteAddresses (packAddressKey a height) }

/-- Error outcomes of `DisconnectBlockRangeUTXO`. -/
inductive DiscErr
  | panic
  | inconsistentData
  | missingHeight (h : Nat)
deriving DecidableEq, Repr

/-- The Go source's `getBlockTxs` for one height: decode the stored
`blockTxs` bytes into per-transaction txids and spent outpoints. -/
def getBlockTxsS (P : ParserS) (db : Db) (height : Nat) :
    Option (Except Unit (List (BTxid × List OutpointS))) :=
  match getBlockTxsGo P.packedTxidLen (db.blockTxs height) with
  | none => none
  | some (.error e) => some (.error e)
  | some (.ok bts) =>
    some (.ok (bts.map fun b => (b.1, b.2.map fun q => (⟨q.1, q.2⟩ : OutpointS))))

/-- The precondition pass of `DisconnectBlockRangeUTXO`: read the
block-tx record of every height in ascending order, failing with the
`rebuild index` error at the first height with no record — all before
the write batch exists. -/
def disconnectRangeCheckLoop (P : ParserS) (db : Db) :
    Nat → Nat → Except DiscErr (List (List (BTxid × List OutpointS)))
  | _, 0 => .ok []
  | h, k + 1 =>
    match getBlockTxsS P db h with
    | none => .error .panic
    | some (.error _) => .error .inconsistentData
    | some (.ok bts) =>
      if bts.length = 0 then .error (.missingHeight h)
      else (disconnectRangeCheckLoop P db (h + 1) k).map fun rest => bts :: rest

/-- The per-height transaction loop (over the stored transactions in
reverse order): record the txid for deletion, load its tx-addresses
record (a missing record only logs), and undo it. -/
def discBlockLoop (db : Db) (height : Nat) :
    List (BTxid × List OutpointS) → DiscState → Option DiscState
  | [], st => some st
  | (btxID, inputs) :: rest, st =>
    let st := { st with txsToDelete :=
      if st.txsToDelete.any fun b => b = btxID then st.txsToDelete
      else st.txsToDelete ++ [btxID] }
    match db.txAddresses btxID with
    | none => discBlockLoop db height rest st
    | some txa =>
      match disconnectTxAddresses db height inputs txa st with
      | none => none
      | some st2 => discBlockLoop db height rest st2

/-- `height--` on a uint32 loop counter. -/
def wrap32dec (h : Nat) : Nat := (h + 2 ^ 32 - 1) % 2 ^ 32

/-- The descending per-height loop of `DisconnectBlockRangeUTXO`
(`for height := higher; height >= lower; height--` on uint32), with the
`blocks[height-lower]` access; an out-of-range access is the Go panic
(`none`), and the fuel bounds the at most `2^32` distinct counter
values. -/
def disconnectHeightsLoop (db : Db) (lower : Nat)
    (blocks : List (List (BTxid × List OutpointS))) :
    Nat → Nat → DiscState → Option DiscState
  | 0, _, _ => none
  | fuel + 1, h, st =>
    if lower ≤ h then
      match blocks.get? (h - lower) with
      | none => none
      | some bts =>
        match discBlockLoop db h bts.reverse st with
        | none => none
        | some st2 =>
          disconnectHeightsLoop db lower blocks fuel (wrap32dec h)
            { st2 with wb := st2.wb ++ [.deleteBlockTxs h, .deleteHeight h] }
    else some st

/-- `storeTxAddresses` over the disconnect accumulator: packing a `nil`
record would be a Go panic (unreachable, since storing a `nil` is
followed at once by the dereference panic inside
`disconnectTxAddresses`). -/
def discStoreTxAddresses :
    List (BTxid × Option TxAddressesS) → Option (List BatchOp)
  | [] => some []
  | (_, none) :: _ => none
  | (k, some ta) :: rest =>
    (discStoreTxAddresses rest).map fun ops => .putTxAddresses k ta :: ops

/-- `storeBalances` over the disconnect accumulator: a `nil` or
zero-transaction balance is deleted from the column. -/
def storeBalancesDisc (abm : List (Addr × Option AddrBalanceS)) : List BatchOp :=
  abm.map fun p =>
    match p.2 with
    | none => .deleteBalance p.1
    | some ab => if ab.txs = 0 then .deleteBalance p.1 else .putBalance p.1 ab

/-- The Go source's `DisconnectBlockRangeUTXO`: the precondition pass,
the descending per-height undo into one batch, the accumulated
tx-addresses, balance and per-transaction deletes, and the atomic
commit.  Every error path returns before the commit, leaving the
database unchanged. -/
def disconnectBlockRangeUTXO (P : ParserS) (db : Db) (lower higher : Nat) :
    Except DiscErr Db :=
  match disconnectRangeCheckLoop P db lower (higher + 1 - lower) with
  | .error e => .error e
  | .ok blocks =>
    match disconnectHeightsLoop db lower blocks (2 ^ 32) higher ⟨[], [], [], []⟩ with
    | none => .error .panic
    | some st =>
      match discStoreTxAddresses st.txAddressesToUpdate with
      | none => .error .panic
      | some taOps =>
        let wb := st.wb ++ taOps ++ storeBalancesDisc st.balances
          ++ (st.txsToDelete.map fun b =>
              [BatchOp.deleteTransactions b, BatchOp.deleteTxAddresses b]).flatten
        .ok (applyBatch db wb)

/-- The bare height sequence the descending loop visits (the loop
counter of `DisconnectBlockRangeUTXO`, without the per-height body). -/
def disconnectHeightSeq (lower : Nat) : Nat → Nat → List Nat
  | 0, _ => []
  | fuel + 1, h => if lower ≤ h then h :: disconnectHeightSeq lower fuel (wrap32dec h) else []

/-- The heights visited by `for height := higher; height >= lower;
height--` with a uint32 counter. -/
def disconnectLoopHeights (lower higher : Nat) : List Nat :=
  disconnectHeightSeq lower (2 ^ 32) higher

/-! ## Claim theorems -/

theorem wrap32dec_eq (h : Nat) (h1 : 1 ≤ h) (h2 : h < 2 ^ 32) : wrap32dec h = h - 1 := by
  unfold wrap32dec
  have hp : (2 : Nat) ^ 32 = 4294967296 := by norm_num
  omega

theorem disconnectHeightSeq_length : ∀ fuel lower h, 1 ≤ lower → lower ≤ h → h < 2 ^ 32 →
    h - lower + 1 ≤ fuel → (disconnectHeightSeq lower fuel h).length = h - lower + 1 := by
  intro fuel
  induction fuel with
  | zero => intro lower h _ _ _ hf; omega
  | succ f ih =>
    intro lower h h1 h2 h3 hf
    unfold disconnectHeightSeq
    rw [if_pos h2]
    rw [wrap32dec_eq h (by omega) h3]
    by_cases hlh : lower < h
    · rw [List.length_cons, ih lower (h - 1) h1 (by omega) (by omega) (by omega)]
      omega
    · have heq : h = lower := by omega
      have hseq : disconnectHeightSeq lower f (h - 1) = [] := by
        cases f with
        | zero => rfl
        | succ g =>
          unfold disconnectHeightSeq
          rw [if_neg (by omega)]
      rw [hseq]
      simp
      omega

/-- C10: with `1 ≤ lower ≤ higher < 2^32` the descending per-height
loop of `DisconnectBlockRangeUTXO` visits exactly
`higher - lower + 1` heights.  The `lower ≥ 1` precondition is what
makes the uint32 condition `height >= lower` falsifiable: for
`lower = 0` the condition holds for every `height`, after processing
height 0 the counter wraps to `2^32 - 1`, and the following
`blocks[height-lower]` access (length `higher - 0 + 1`) is out of
bounds whenever `higher < 2^32 - 1`. -/
theorem disconnectLoop_iterations (lower higher : Nat)
    (h1 : 1 ≤ lower) (h2 : lower ≤ higher) (h3 : higher < 2 ^ 32) :
    (disconnectLoopHeights lower higher).length = higher - lower + 1 ∧
    wrap32dec 0 = 2 ^ 32 - 1 ∧
    (∀ h : Nat, 0 ≤ h) ∧
    (higher < 2 ^ 32 - 1 → higher - 0 + 1 ≤ wrap32dec 0 - 0) := by
  refine ⟨?_, ?_, fun h => Nat.zero_le h, ?_⟩
  · unfold disconnectLoopHeights
    apply disconnectHeightSeq_length (2 ^ 32) lower higher h1 h2 h3
    omega
  · unfold wrap32dec
    norm_num
  · intro hh
    unfold wrap32dec
    have hp : (2 : Nat) ^ 32 = 4294967296 := by norm_num
    omega

/-- Witness for C10 at `lower = 1`, `higher = 3`. -/
theorem disconnectLoop_iterations_witness :
    (disconnectLoopHeights 1 3).length = 3 - 1 + 1 ∧
    wrap32dec 0 = 2 ^ 32 - 1 ∧
    (∀ h : Nat, 0 ≤ h) ∧
    (3 < 2 ^ 32 - 1 → 3 - 0 + 1 ≤ wrap32dec 0 - 0) :=
  disconnectLoop_iterations 1 3 (by norm_num) (by norm_num) (by norm_num)

/-- A minimal parser instance for concrete runs: one-byte packed txids,
no decodable output addresses, retention of one block. -/
def cexParser : ParserS :=
  { packTxid := fun t => .ok [t % 256]
    getAddrDescFromVout := fun _ => .error ()
    packBlockHash := fun h => .ok [h % 256]
    packedTxidLen := 1
    keepBlockAddresses := 1 }

/-- A store whose `blockTxs` column holds exactly one entry, at
height 1. -/
def cexDbC2 : Db :=
  { height := fun _ => none, addresses := fun _ => none, txAddresses := fun _ => none,
    addressBalance := fun _ => none,
    blockTxs := fun h => if h = 1 then [9] else [],
    transactions := fun _ => none }

/-- An empty block at height 2. -/
def cexBlockC2 : BlockS := { height := 2, hash := 1, time := 0, size := 0, txs := [] }

/-- C2, counterexample: connecting height 2 with retention 1 deletes the
block-tx entry at height `2 - 1 = 1` — the entry at `h - retention`
itself, which the claim says is not deleted (the loop starts at
`h - retention`, not `h - retention - 1`). -/
theorem storeAndCleanupBlockTxs_deletes_boundary :
    ((storeAndCleanupBlockTxs cexParser [] cexDbC2 cexBlockC2).map
      fun r => r.2.blockTxs 1) = .ok [] ∧
    cexDbC2.blockTxs 1 = [9] ∧
    cexBlockC2.height - cexParser.keepBlockAddresses = 1 :=
  ⟨rfl, rfl, rfl⟩

/-- C2 amended: after writing the block-tx record for height `h` with
retention `keep` (`1 ≤ keep < h`), the cleanup deletes exactly the
entries at heights `x ≤ h - keep` from which every height up to
`h - keep` is present — it iterates backward starting at `h - keep`
(deleting that entry too) and stops at the first missing height. -/
theorem storeAndCleanupBlockTxs_cleanup_spec (P : ParserS) (wb : List BatchOp) (db : Db)
    (block : BlockS) (hkeep1 : 1 ≤ P.keepBlockAddresses)
    (hkeep : P.keepBlockAddresses < block.height) :
    ∀ wb2 db2, storeAndCleanupBlockTxs P wb db block = .ok (wb2, db2) →
    ∀ x, db2.blockTxs x =
      if x ≤ block.height - P.keepBlockAddresses ∧
         (∀ y, x ≤ y → y ≤ block.height - P.keepBlockAddresses → db.blockTxs y ≠ []) then []
      else db.blockTxs x := by
  intro wb2 db2 hok x
  unfold storeAndCleanupBlockTxs at hok
  cases hbuf : blockTxsBufLoop P P.packedTxidLen block.txs [] with
  | error e => rw [hbuf] at hok; exact absurd hok (by simp)
  | ok buf =>
    rw [hbuf] at hok
    simp only [Except.ok.injEq, Prod.mk.injEq] at hok
    have hdb2 : db2 = if P.keepBlockAddresses < block.height then
        { db with blockTxs := cleanupGo block.height (block.height - P.keepBlockAddresses) db.blockTxs }
      else db := hok.2.symm
    rw [hdb2, if_pos hkeep]
    show cleanupGo block.height (block.height - P.keepBlockAddresses) db.blockTxs x = _
    rw [cleanupGo_spec]
    by_cases hc : x ≤ block.height - P.keepBlockAddresses ∧
        (∀ y, x ≤ y → y ≤ block.height - P.keepBlockAddresses → db.blockTxs y ≠ [])
    · rw [if_pos ⟨hc.1, by omega, hc.2⟩, if_pos hc]
    · rw [if_neg (by tauto), if_neg hc]

/-- Witness for the amended C2 at the concrete instance: the entry at
height 1 (`= h - keep`) is deleted. -/
theorem storeAndCleanupBlockTxs_cleanup_spec_witness :
    ({ cexDbC2 with blockTxs := cleanupGo 2 (2 - 1) cexDbC2.blockTxs } : Db).blockTxs 1
      = [] := by
  have h := storeAndCleanupBlockTxs_cleanup_spec cexParser [] cexDbC2 cexBlockC2
    (by norm_num [cexParser]) (by norm_num [cexParser, cexBlockC2])
    [.putBlockTxs 2 []]
    { cexDbC2 with blockTxs := cleanupGo 2 (2 - 1) cexDbC2.blockTxs }
    rfl 1
  rw [h, if_pos]
  constructor
  · norm_num [cexBlockC2, cexParser]
  · intro y h1 h2
    have hy : y = 1 := by
      have : cexBlockC2.height - cexParser.keepBlockAddresses = 1 := rfl
      omega
    subst hy
    show cexDbC2.blockTxs 1 ≠ []
    simp [cexDbC2]

/-- C1, counterexample: connecting the empty block at height 2 with
retention 1 already removes the block-tx entry at height 1 from the
database state that exists before the final batch commit — the cleanup
deletion is applied through an immediate `d.db.DeleteCF`, not through
the write batch, so a failing commit would leave that column family
modified. -/
theorem writeBlockConnect_mutation_outside_batch :
    ((writeBlockConnect cexParser cexDbC2 cexBlockC2).map fun r => r.2.blockTxs 1) = .ok [] ∧
    cexDbC2.blockTxs 1 = [9] :=
  ⟨rfl, rfl⟩

/-- C1 amended: every store mutation of `ConnectBlock` other than the
cleanup deletion of old block-tx entries is routed through the single
write batch — the database state reached before the commit agrees with
the input state on every column family, except that some `blockTxs`
entries strictly below the connected height may already have been
deleted (by the cleanup's immediate, non-batched deletes). -/
theorem writeBlockConnect_batch_routing (P : ParserS) (db : Db) (block : BlockS) :
    ∀ wb db2, writeBlockConnect P db block = .ok (wb, db2) →
      db2.height = db.height ∧ db2.addresses = db.addresses ∧
      db2.txAddresses = db.txAddresses ∧ db2.addressBalance = db.addressBalance ∧
      db2.transactions = db.transactions ∧
      ∀ h, db2.blockTxs h ≠ db.blockTxs h →
        db2.blockTxs h = [] ∧ h + P.keepBlockAddresses ≤ block.height ∧ h < block.height := by
  intro wb db2 hok
  unfold writeBlockConnect at hok
  cases hwh : writeHeightFromBlockConnect P block with
  | error e => rw [hwh] at hok; exact absurd hok (by simp)
  | ok op0 =>
    rw [hwh] at hok
    cases hpr : processAddressesUTXO P db block with
    | error e => rw [hpr] at hok; exact absurd hok (by simp)
    | ok st =>
      rw [hpr] at hok
      unfold storeAndCleanupBlockTxs at hok
      cases hbuf : blockTxsBufLoop P P.packedTxidLen block.txs [] with
      | error e => rw [hbuf] at hok; exact absurd hok (by simp)
      | ok buf =>
        rw [hbuf] at hok
        simp only [Except.ok.injEq, Prod.mk.injEq] at hok
        have hdb2 : db2 = if P.keepBlockAddresses < block.height then
            { db with blockTxs := cleanupGo block.height (block.height - P.keepBlockAddresses) db.blockTxs }
          else db := hok.2.symm
        by_cases hkeep : P.keepBlockAddresses < block.height
        · rw [hdb2, if_pos hkeep]
          refine ⟨rfl, rfl, rfl, rfl, rfl, ?_⟩
          intro h hne
          have hval := cleanupGo_spec block.height (block.height - P.keepBlockAddresses)
            db.blockTxs h
          show cleanupGo block.height (block.height - P.keepBlockAddresses) db.blockTxs h = []
            ∧ _ ∧ _
          by_cases hc : h ≤ block.height - P.keepBlockAddresses ∧
              block.height - P.keepBlockAddresses < block.height ∧
              ∀ y, h ≤ y → y ≤ block.height - P.keepBlockAddresses → db.blockTxs y ≠ []
          · rw [hval, if_pos hc]
            refine ⟨rfl, by omega, by omega⟩
          · exact absurd (hval.trans (if_neg hc)) hne
        · rw [hdb2, if_neg hkeep]
          exact ⟨rfl, rfl, rfl, rfl, rfl, fun h hne => absurd rfl hne⟩

/-- Witness for the amended C1 at the concrete instance: the pre-commit
state equals the input state except for the cleanup-deleted `blockTxs`
entry below the connected height. -/
theorem writeBlockConnect_batch_routing_witness :
    ({ cexDbC2 with blockTxs := cleanupGo 2 (2 - 1) cexDbC2.blockTxs } : Db).height
        = cexDbC2.height ∧
    ({ cexDbC2 with blockTxs := cleanupGo 2 (2 - 1) cexDbC2.blockTxs } : Db).addressBalance
        = cexDbC2.addressBalance := by
  have h := writeBlockConnect_batch_routing cexParser cexDbC2 cexBlockC2
    [.putHeight 2 [1, 0, 0, 0, 0, 0, 0], .putBlockTxs 2 []]
    { cexDbC2 with blockTxs := cleanupGo 2 (2 - 1) cexDbC2.blockTxs }
    rfl
  exact ⟨h.1, h.2.2.2.1⟩

set_option maxRecDepth 100000 in
/-- C3, counterexample: `2^1984` has a 249-byte magnitude (> 248
bytes), yet `packBigint` writes 242 bytes, not 249 — the truncated
encoding keeps only the significant bytes of the most significant
64-bit word (here one byte) plus 30 full words. -/
theorem packBigint_oversize_not_249 :
    248 < natBytesLen (2 ^ 1984) ∧ (packBigint (2 ^ 1984)).length = 242 := by
  constructor
  · decide
  · decide

/-- C3 amended: for a magnitude longer than 248 bytes, `packBigint`
writes `sigByteLen(top word) + 241` bytes — between 242 and 249, and
exactly 249 only when the top word has eight significant bytes — and
`unpackBigint` applied to that output returns, without error, the value
truncated to its `maxPackedBigintWords` most significant words. -/
theorem packBigint_truncation (n : Nat) (h : 248 < natBytesLen n) :
    (packBigint n).length = sigByteLen (bigIntTopWord n) + 241 ∧
    242 ≤ (packBigint n).length ∧ (packBigint n).length ≤ 249 ∧
    unpackBigint (packBigint n) =
      some (n / 2 ^ (64 * ((bigIntBits n).length - maxPackedBigintWords)),
            (packBigint n).length) := by
  refine ⟨packBigint_length_big n h, ?_, ?_, unpackBigint_packBigint n⟩
  · rw [packBigint_length_big n h]
    have := sigByteLen_pos (bigIntTopWord n)
    omega
  · rw [packBigint_length_big n h]
    have := sigByteLen_le_eight (bigIntTopWord n)
    omega

set_option maxRecDepth 100000 in
/-- Witness for the amended C3 at `n = 2^1984`. -/
theorem packBigint_truncation_witness :
    (packBigint (2 ^ 1984)).length = sigByteLen (bigIntTopWord (2 ^ 1984)) + 241 ∧
    242 ≤ (packBigint (2 ^ 1984)).length ∧ (packBigint (2 ^ 1984)).length ≤ 249 ∧
    unpackBigint (packBigint (2 ^ 1984)) =
      some ((2 ^ 1984) / 2 ^ (64 * ((bigIntBits (2 ^ 1984)).length - maxPackedBigintWords)),
            (packBigint (2 ^ 1984)).length) :=
  packBigint_truncation (2 ^ 1984) (by decide)

/-- C9, counterexample: the address-key codec does not round-trip on the
empty descriptor (length `0 ≤ 1024`): unpacking the four-byte key
`packAddressKey [] 0` is the `Invalid address key` error, not
`([], 0)`. -/
theorem unpackAddressKey_empty_fails :
    unpackAddressKey (packAddressKey [] 0) = none ∧ List.length ([] : List Nat) ≤ 1024 :=
  ⟨rfl, by norm_num⟩

/-- C9 amended: the five codec round trips, with the address-key pair
restricted to non-empty descriptors (the empty descriptor is rejected
by `unpackAddressKey`): fixed u32, unsigned 64-bit varuint, signed
64-bit varint, big integers of at most 248 bytes, and address keys of 1
to 1024 descriptor bytes all decode back to the original value and
consumed length. -/
theorem codec_roundtrips :
    (∀ i : Nat, i < 2 ^ 32 → unpackUint (packUint i) = i) ∧
    (∀ x : Nat, x < 2 ^ 64 →
      unpackVaruint (packVaruint x) = (x, ((packVaruint x).length : Int))) ∧
    (∀ x : Int, -(2 ^ 63) ≤ x → x < 2 ^ 63 →
      unpackVarint (packVarint x) = (x, ((packVarint x).length : Int))) ∧
    (∀ n : Nat, natBytesLen n ≤ 248 →
      unpackBigint (packBigint n) = some (n, (packBigint n).length)) ∧
    (∀ (addrDesc : List Nat) (height : Nat), 1 ≤ addrDesc.length → addrDesc.length ≤ 1024 →
      height < 2 ^ 32 →
      unpackAddressKey (packAddressKey addrDesc height) = some (addrDesc, height)) :=
  ⟨unpackUint_packUint,
   unpackVaruint_packVaruint,
   unpackVarint_packVarint,
   unpackBigint_packBigint_roundtrip,
   fun addrDesc height h1 _ h32 =>
     unpackAddressKey_packAddressKey addrDesc height
       (by intro hcon; rw [hcon] at h1; exact absurd h1 (by norm_num)) h32⟩

/-- Witness for the amended C9 at concrete inputs of each codec. -/
theorem codec_roundtrips_witness :
    unpackUint (packUint 7) = 7 ∧
    unpackVaruint (packVaruint 300) = (300, ((packVaruint 300).length : Int)) ∧
    unpackVarint (packVarint (-5)) = (-5, ((packVarint (-5)).length : Int)) ∧
    unpackBigint (packBigint 1000000) = some (1000000, (packBigint 1000000).length) ∧
    unpackAddressKey (packAddressKey [65] 9) = some ([65], 9) :=
  ⟨codec_roundtrips.1 7 (by norm_num),
   codec_roundtrips.2.1 300 (by norm_num),
   codec_roundtrips.2.2.1 (-5) (by norm_num) (by norm_num),
   codec_roundtrips.2.2.2.1 1000000 (by decide),
   codec_roundtrips.2.2.2.2 [65] 9 (by norm_num) (by norm_num) (by norm_num)⟩

/-- C4, counterexample: each decoder family has a malformed buffer on
which the Go code reads out of bounds instead of returning a value or
an inconsistent-data error: `unpackBigint` on `[1]` slices past the
end, `unpackTxAddresses` on `[0, 1, 5]` copies a 5-byte address from a
1-byte remainder, and `getBlockTxs` (packed-txid length 2) follows the
negative offset an impossible varint makes `unpackNOutpoints` return
and slices at index `-8`. -/
theorem decoders_out_of_bounds :
    unpackBigint [1] = none ∧
    unpackTxAddressesGo [0, 1, 5] = none ∧
    getBlockTxsGo 2 [0, 0, 128, 128, 128, 128, 128, 128, 128, 128, 128, 2] = none :=
  ⟨rfl, rfl, rfl⟩

/-- C4 amended: the decoders are not uniformly panic-free; for
`unpackBigint` the exact safety boundary is that a value is returned
precisely when the buffer is non-empty and holds the `buf[0]` bytes its
length prefix promises — shorter buffers are read out of bounds rather
than reported. -/
theorem unpackBigint_safety_boundary (buf : List Nat) :
    (unpackBigint buf).isSome = true ↔ buf ≠ [] ∧ buf.headD 0 + 1 ≤ buf.length :=
  unpackBigint_isSome_iff buf

theorem getBlockTxsS_empty (P : ParserS) (db : Db) (h : Nat) (hdb : db.blockTxs h = []) :
    getBlockTxsS P db h = some (.ok []) := by
  unfold getBlockTxsS
  rw [hdb]
  rfl

theorem disconnectRangeCheckLoop_missing (P : ParserS) (db : Db) :
    ∀ k h h₀, h ≤ h₀ → h₀ < h + k → db.blockTxs h₀ = [] →
    (∀ x, h ≤ x → x < h₀ → ∃ bts, getBlockTxsS P db x = some (.ok bts) ∧ bts ≠ []) →
    disconnectRangeCheckLoop P db h k = .error (.missingHeight h₀) := by
  intro k
  induction k with
  | zero => intro h h₀ h1 h2 _ _; omega
  | succ k ih =>
    intro h h₀ h1 h2 hmiss hprev
    unfold disconnectRangeCheckLoop
    by_cases heq : h = h₀
    · subst heq
      rw [getBlockTxsS_empty P db h hmiss]
      simp
    · obtain ⟨bts, hbts, hne⟩ := hprev h (le_refl h) (by omega)
      rw [hbts]
      have hlen : ¬bts.length = 0 := fun hc => hne (List.eq_nil_of_length_eq_zero hc)
      show (if bts.length = 0 then Except.error (.missingHeight h)
        else (disconnectRangeCheckLoop P db (h + 1) k).map fun rest => bts :: rest) = _
      rw [if_neg hlen,
        ih (h + 1) h₀ (by omega) (by omega) hmiss fun x hx1 hx2 => hprev x (by omega) hx2]
      rfl

/-- C5 amended: if some height in `[lower, higher]` has no (or an
empty) block-tx record and every lower height in the range decodes to a
non-empty record, `DisconnectBlockRangeUTXO` returns the rebuild-index
error naming the earliest missing height; the check runs over all
heights before the write batch is created, and every error path of the
function returns before the single commit, leaving all column families
unchanged.  (Without the decode proviso, a corrupt record at a lower
height makes the function return the inconsistent-data error
instead.) -/
theorem disconnectBlockRangeUTXO_missing (P : ParserS) (db : Db) (lower higher h₀ : Nat)
    (h1 : lower ≤ h₀) (h2 : h₀ ≤ higher) (hmiss : db.blockTxs h₀ = [])
    (hfirst : ∀ x, lower ≤ x → x < h₀ →
      ∃ bts, getBlockTxsS P db x = some (.ok bts) ∧ bts ≠ []) :
    disconnectBlockRangeUTXO P db lower higher = .error (.missingHeight h₀) := by
  unfold disconnectBlockRangeUTXO
  rw [disconnectRangeCheckLoop_missing P db (higher + 1 - lower) lower h₀ h1 (by omega)
    hmiss hfirst]

/-- A parser with two-byte packed txids, for the disconnect runs. -/
def cexParserC5 : ParserS :=
  { packTxid := fun t => .ok [t % 256, t / 256 % 256]
    getAddrDescFromVout := fun _ => .error ()
    packBlockHash := fun h => .ok [h % 256]
    packedTxidLen := 2
    keepBlockAddresses := 300 }

/-- A store whose block-tx record at height 5 is corrupt (one byte,
shorter than a packed txid) and whose record at height 6 is missing. -/
def cexDbC5 : Db :=
  { height := fun _ => none, addresses := fun _ => none, txAddresses := fun _ => none,
    addressBalance := fun _ => none,
    blockTxs := fun h => if h = 5 then [9] else [],
    transactions := fun _ => none }

/-- C5, counterexample: the range `[5, 6]` has a missing record at
height 6, yet `DisconnectBlockRangeUTXO` returns the inconsistent-data
error for the corrupt record at height 5 — an error that does not name
the earliest missing height. -/
theorem disconnect_missing_error_not_named :
    disconnectBlockRangeUTXO cexParserC5 cexDbC5 5 6 = .error .inconsistentData ∧
    cexDbC5.blockTxs 6 = [] ∧
    disconnectBlockRangeUTXO cexParserC5 cexDbC5 5 6 ≠ .error (.missingHeight 6) := by
  refine ⟨rfl, rfl, fun hcon => ?_⟩
  rw [show disconnectBlockRangeUTXO cexParserC5 cexDbC5 5 6 = .error .inconsistentData
    from rfl] at hcon
  exact absurd (Except.error.inj hcon) (by simp)

/-- A store with a well-formed block-tx record at height 5 and nothing
at height 6. -/
def cexDbC5Good : Db :=
  { height := fun _ => none, addresses := fun _ => none, txAddresses := fun _ => none,
    addressBalance := fun _ => none,
    blockTxs := fun h => if h = 5 then [7, 7, 0] else [],
    transactions := fun _ => none }

/-- Witness for the amended C5: with the record at height 5 decodable
and height 6 missing, the function names height 6. -/
theorem disconnectBlockRangeUTXO_missing_witness :
    disconnectBlockRangeUTXO cexParserC5 cexDbC5Good 5 6 = .error (.missingHeight 6) := by
  apply disconnectBlockRangeUTXO_missing cexParserC5 cexDbC5Good 5 6 6 (by norm_num)
    (by norm_num) rfl
  intro x hx1 hx2
  have hx : x = 5 := by omega
  subst hx
  exact ⟨[([7, 7], [])], rfl, by simp⟩

theorem alistLookup_insert_self {β : Type} (m : List (List Nat × β)) (k : List Nat) (v : β) :
    alistLookup (alistInsert m k v) k = some v := by
  induction m with
  | nil => simp [alistInsert, alistLookup]
  | cons p t ih =>
    by_cases hk : p.1 = k
    · simp [alistInsert, hk, alistLookup]
    · simp only [alistInsert]
      rw [if_neg (by exact hk)]
      simp only [alistLookup]
      rw [if_neg (by exact hk)]
      exact ih

theorem alistLookup_insert_ne {β : Type} (m : List (List Nat × β)) (k k2 : List Nat) (v : β)
    (h : k ≠ k2) : alistLookup (alistInsert m k v) k2 = alistLookup m k2 := by
  induction m with
  | nil =>
    simp only [alistInsert, alistLookup]
    rw [if_neg h]
  | cons p t ih =>
    by_cases hk : p.1 = k
    · simp only [alistInsert]
      rw [if_pos hk]
      simp only [alistLookup]
      rw [if_neg h, if_neg (show ¬p.1 = k2 from fun hc => h (hk.symm.trans hc))]
    · simp only [alistInsert]
      rw [if_neg hk]
      simp only [alistLookup]
      by_cases hp2 : p.1 = k2
      · rw [if_pos hp2, if_pos hp2]
      · rw [if_neg hp2, if_neg hp2]
        exact ih

theorem alistLookup_insert_cases {β : Type} (m : List (List Nat × β)) (k k2 : List Nat) (v : β) :
    alistLookup (alistInsert m k v) k2 =
      if k = k2 then some v else alistLookup m k2 := by
  by_cases h : k = k2
  · subst h
    rw [if_pos rfl, alistLookup_insert_self]
  · rw [if_neg h, alistLookup_insert_ne m k k2 v h]

theorem get?_set_self {α : Type} : ∀ (l : List α) (n : Nat) (a : α), n < l.length →
    (l.set n a).get? n = some a := by
  intro l
  induction l with
  | nil => intro n a h; simp at h
  | cons x t ih =>
    intro n a h
    cases n with
    | zero => rfl
    | succ m =>
      show (t.set m a).get? m = some a
      exact ih m a (by simpa using h)

theorem get?_set_other {α : Type} : ∀ (l : List α) (n m : Nat) (a : α), n ≠ m →
    (l.set n a).get? m = l.get? m := by
  intro l
  induction l with
  | nil => intro n m a _; simp
  | cons x t ih =>
    intro n m a h
    cases n with
    | zero =>
      cases m with
      | zero => omega
      | succ m2 => rfl
    | succ n2 =>
      cases m with
      | zero => rfl
      | succ m2 =>
        show (t.set n2 a).get? m2 = t.get? m2
        exact ih n2 m2 a (by omega)

theorem mem_of_mem_set {α : Type} : ∀ (l : List α) (n : Nat) (a b : α),
    b ∈ l.set n a → b ∈ l ∨ b = a := by
  intro l
  induction l with
  | nil => intro n a b h; simp at h
  | cons x t ih =>
    intro n a b h
    cases n with
    | zero =>
      rcases List.mem_cons.mp h with rfl | h2
      · exact Or.inr rfl
      · exact Or.inl (List.mem_cons_of_mem _ h2)
    | succ m =>
      rcases List.mem_cons.mp h with rfl | h2
      · exact Or.inl (List.mem_cons_self _ _)
      · rcases ih m a b h2 with h3 | h3
        · exact Or.inl (List.mem_cons_of_mem _ h3)
        · exact Or.inr h3

/-! ## C6: non-negativity of balance and sent -/

/-- Every balance reachable in a working map has non-negative monetary
fields. -/
def balancesNonneg (bal : List (Addr × AddrBalanceS)) : Prop :=
  ∀ a ab, alistLookup bal a = some ab → 0 ≤ ab.sentSat ∧ 0 ≤ ab.balanceSat

/-- Every output value stored in the per-block records is
non-negative. -/
def recsOutputsNonneg (recs : List TxAddressesS) : Prop :=
  ∀ j ta, recs.get? j = some ta → ∀ o ∈ ta.outputs, 0 ≤ o.valueSat

/-- Every output value of a loaded record in the working map is
non-negative. -/
def mapExtNonneg (m : List (BTxid × TxRef)) : Prop :=
  ∀ k ta, alistLookup m k = some (.ext ta) → ∀ o ∈ ta.outputs, 0 ≤ o.valueSat

/-- The connect invariant: non-negative balances and output values
everywhere the inputs pass can read them. -/
def connInv (st : ConnState) : Prop :=
  balancesNonneg st.balances ∧ recsOutputsNonneg st.recs ∧ mapExtNonneg st.txAddressesMap

/-- The store-side hypotheses: persisted balances and persisted output
values are non-negative (amounts are non-negative on a real chain). -/
def dbNonneg (db : Db) : Prop :=
  (∀ a ab, db.addressBalance a = some ab → 0 ≤ ab.sentSat ∧ 0 ≤ ab.balanceSat) ∧
  (∀ k ta, db.txAddresses k = some ta → ∀ o ∈ ta.outputs, 0 ≤ o.valueSat)

theorem recsNonneg_updateRecOutput (recs : List TxAddressesS) (txi i : Nat)
    (f : TxOutputS → TxOutputS) (h : recsOutputsNonneg recs)
    (hf : ∀ ta o, recs.get? txi = some ta → o ∈ ta.outputs → 0 ≤ (f o).valueSat) :
    recsOutputsNonneg (updateRecOutput recs txi i f) := by
  unfold updateRecOutput
  split
  · exact h
  next r hr =>
    split
    · exact h
    next o ho =>
      intro j ta hget o2 ho2
      by_cases hj : j = txi
      · subst hj
        have hlt : j < recs.length := (List.get?_eq_some.mp hr).1
        rw [get?_set_self recs j _ hlt] at hget
        have hta : ta = { r with outputs := r.outputs.set i (f o) } := by
          injection hget with h2
          exact h2.symm
        subst hta
        rcases mem_of_mem_set r.outputs i (f o) o2 ho2 with h2 | h2
        · exact h j r hr o2 h2
        · subst h2
          exact hf r o hr (List.get?_mem ho)
      · rw [get?_set_other recs txi j _ (fun hc => hj hc.symm)] at hget
        exact h j ta hget o2 ho2

theorem recsNonneg_updateRecInput (recs : List TxAddressesS) (txi i : Nat) (v : TxInputS)
    (h : recsOutputsNonneg recs) : recsOutputsNonneg (updateRecInput recs txi i v) := by
  unfold updateRecInput
  split
  · exact h
  next r hr =>
    intro j ta hget o2 ho2
    by_cases hj : j = txi
    · subst hj
      have hlt : j < recs.length := (List.get?_eq_some.mp hr).1
      rw [get?_set_self recs j _ hlt] at hget
      have hta : ta = { r with inputs := r.inputs.set i v } := by
        injection hget with h2
        exact h2.symm
      subst hta
      exact h j r hr o2 ho2
    · rw [get?_set_other recs txi j _ (fun hc => hj hc.symm)] at hget
      exact h j ta hget o2 ho2

theorem recsNonneg_setRecInputs (recs : List TxAddressesS) (txi : Nat) (ins : List TxInputS)
    (h : recsOutputsNonneg recs) : recsOutputsNonneg (setRecInputs recs txi ins) := by
  unfold setRecInputs
  split
  · exact h
  next r hr =>
    intro j ta hget o2 ho2
    by_cases hj : j = txi
    · subst hj
      have hlt : j < recs.length := (List.get?_eq_some.mp hr).1
      rw [get?_set_self recs j _ hlt] at hget
      have hta : ta = { r with inputs := ins } := by
        injection hget with h2
        exact h2.symm
      subst hta
      exact h j r hr o2 ho2
    · rw [get?_set_other recs txi j _ (fun hc => hj hc.symm)] at hget
      exact h j ta hget o2 ho2

theorem recsNonneg_append (recs : List TxAddressesS) (ta : TxAddressesS)
    (h : recsOutputsNonneg recs) (hta : ∀ o ∈ ta.outputs, 0 ≤ o.valueSat) :
    recsOutputsNonneg (recs ++ [ta]) := by
  intro j ta2 hget o ho
  rcases Nat.lt_or_ge j recs.length with hj | hj
  · rw [List.get?_append hj] at hget
    exact h j ta2 hget o ho
  · have hj2 : j - recs.length < [ta].length ∨ ¬(j - recs.length < 1) := by
      by_cases hc : j - recs.length < 1
      · exact Or.inl (by simpa using hc)
      · exact Or.inr hc
    have hget2 : ([ta].get? (j - recs.length)) = some ta2 := by
      rw [← hget, List.get?_append_right hj]
    rcases Nat.lt_or_ge (j - recs.length) 1 with hlt | hge
    · have hz : j - recs.length = 0 := by omega
      rw [hz] at hget2
      have : ta = ta2 := by injection hget2
      subst this
      exact hta o ho
    · rw [List.get?_eq_none.mpr (by simpa using hge)] at hget2
      exact absurd hget2 (by simp)

theorem taSetOutputSpent_nonneg (ta : TxAddressesS) (vout : Nat)
    (h : ∀ o ∈ ta.outputs, 0 ≤ o.valueSat) :
    ∀ o ∈ (taSetOutputSpent ta vout).outputs, 0 ≤ o.valueSat := by
  unfold taSetOutputSpent
  split
  · exact h
  next o ho =>
    intro o2 ho2
    rcases mem_of_mem_set ta.outputs vout _ o2 ho2 with h2 | h2
    · exact h o2 h2
    · subst h2
      exact h o (List.get?_mem ho)

theorem balancesNonneg_insert (bal : List (Addr × AddrBalanceS)) (a : Addr) (ab : AddrBalanceS)
    (h : balancesNonneg bal) (hab : 0 ≤ ab.sentSat ∧ 0 ≤ ab.balanceSat) :
    balancesNonneg (alistInsert bal a ab) := by
  intro a2 ab2 hget
  rw [alistLookup_insert_cases] at hget
  by_cases ha : a = a2
  · rw [if_pos ha] at hget
    have : ab = ab2 := by injection hget
    subst this
    exact hab
  · rw [if_neg ha] at hget
    exact h a2 ab2 hget

theorem mapExtNonneg_insert_inBlock (m : List (BTxid × TxRef)) (k : BTxid) (j : Nat)
    (h : mapExtNonneg m) : mapExtNonneg (alistInsert m k (.inBlock j)) := by
  intro k2 ta hget
  rw [alistLookup_insert_cases] at hget
  by_cases hk : k = k2
  · rw [if_pos hk] at hget
    exact absurd hget (by simp)
  · rw [if_neg hk] at hget
    exact h k2 ta hget

theorem mapExtNonneg_insert_ext (m : List (BTxid × TxRef)) (k : BTxid) (ta : TxAddressesS)
    (h : mapExtNonneg m) (hta : ∀ o ∈ ta.outputs, 0 ≤ o.valueSat) :
    mapExtNonneg (alistInsert m k (.ext ta)) := by
  intro k2 ta2 hget
  rw [alistLookup_insert_cases] at hget
  by_cases hk : k = k2
  · rw [if_pos hk] at hget
    have : TxRef.ext ta = TxRef.ext ta2 := by injection hget
    have hta2 : ta = ta2 := by injection this
    subst hta2
    exact hta
  · rw [if_neg hk] at hget
    exact h k2 ta2 hget

theorem loadedBalance_nonneg (db : Db) (bal : List (Addr × AddrBalanceS)) (a : Addr)
    (hdb : dbNonneg db) (h : balancesNonneg bal) :
    0 ≤ (loadedBalance db bal a).sentSat ∧ 0 ≤ (loadedBalance db bal a).balanceSat := by
  unfold loadedBalance
  cases hb : alistLookup bal a with
  | some ab => exact h a ab hb
  | none =>
    cases hd : db.addressBalance a with
    | some ab => simpa [hd] using hdb.1 a ab hd
    | none => simp [hd]

theorem bumpTxs_nonneg (p : Bool) (ab : AddrBalanceS)
    (h : 0 ≤ ab.sentSat ∧ 0 ≤ ab.balanceSat) :
    0 ≤ (bumpTxs p ab).sentSat ∧ 0 ≤ (bumpTxs p ab).balanceSat := by
  unfold bumpTxs
  split
  · exact h
  · exact h

theorem addToBalance_nonneg (ab : AddrBalanceS) (value : Int)
    (h : 0 ≤ ab.sentSat ∧ 0 ≤ ab.balanceSat) (hv : 0 ≤ value) :
    0 ≤ (addToBalance ab value).sentSat ∧ 0 ≤ (addToBalance ab value).balanceSat := by
  unfold addToBalance
  exact ⟨h.1, by have := h.2; simp only []; omega⟩

theorem subFromBalance_nonneg (ab : AddrBalanceS) (value : Int)
    (hs : 0 ≤ ab.sentSat) (hv : 0 ≤ value) :
    0 ≤ (subFromBalance ab value).sentSat ∧ 0 ≤ (subFromBalance ab value).balanceSat := by
  unfold subFromBalance
  constructor
  · show (0 : Int) ≤ ab.sentSat + value
    omega
  · show (0 : Int) ≤ if ab.balanceSat - value < 0 then 0 else ab.balanceSat - value
    split <;> omega

theorem connectOutputSkip_inv (txi i : Nat) (value : Int) (st : ConnState)
    (hv : 0 ≤ value) (hinv : connInv st) : connInv (connectOutputSkip txi i value st) := by
  obtain ⟨hbal, hrecs, hmap⟩ := hinv
  exact ⟨hbal, recsNonneg_updateRecOutput _ _ _ _ hrecs (fun _ _ _ _ => hv), hmap⟩

theorem connectOutputGood_inv (db : Db) (btxID : BTxid) (txi i : Nat) (value : Int)
    (addrDesc : Addr) (st : ConnState) (hdb : dbNonneg db) (hv : 0 ≤ value)
    (hinv : connInv st) : connInv (connectOutputGood db btxID txi i value addrDesc st) := by
  obtain ⟨hbal, hrecs, hmap⟩ := hinv
  unfold connectOutputGood
  refine ⟨?_, ?_, hmap⟩
  · apply balancesNonneg_insert _ _ _ hbal
    have hl := loadedBalance_nonneg db st.balances addrDesc hdb hbal
    exact addToBalance_nonneg _ _ (bumpTxs_nonneg _ _ hl) hv
  · show recsOutputsNonneg (updateRecOutput (updateRecOutput st.recs txi i _) txi i _)
    exact recsNonneg_updateRecOutput _ _ _ _
      (recsNonneg_updateRecOutput _ _ _ _ hrecs (fun _ _ _ _ => hv))
      fun ta o hta ho =>
        recsNonneg_updateRecOutput _ _ _ _ hrecs (fun _ _ _ _ => hv) txi ta hta o ho

theorem connectOutputStep_inv (P : ParserS) (db : Db) (btxID : BTxid) (txi i : Nat)
    (output : VoutS) (st : ConnState) (hdb : dbNonneg db) (hv : 0 ≤ output.valueSat)
    (hinv : connInv st) : connInv (connectOutputStep P db btxID txi i output st) := by
  unfold connectOutputStep
  cases hd : P.getAddrDescFromVout output with
  | error e => exact connectOutputSkip_inv _ _ _ _ hv hinv
  | ok addrDesc =>
    show connInv (if addrDesc.length = 0 ∨ maxAddrDescLen < addrDesc.length then
      connectOutputSkip txi i output.valueSat st
      else connectOutputGood db btxID txi i output.valueSat addrDesc st)
    split
    · exact connectOutputSkip_inv _ _ _ _ hv hinv
    · exact connectOutputGood_inv _ _ _ _ _ _ _ hdb hv hinv

theorem connectOutputsFold_inv (P : ParserS) (db : Db) (btxID : BTxid) (txi : Nat)
    (outputs : List VoutS) (i : Nat) (st : ConnState) (hdb : dbNonneg db)
    (hv : ∀ o ∈ outputs, 0 ≤ o.valueSat) (hinv : connInv st) :
    connInv (connectOutputsFold P db btxID txi i outputs st) := by
  induction outputs generalizing i st with
  | nil => exact hinv
  | cons output rest ih =>
    exact ih (i + 1) _ (fun o ho => hv o (List.mem_cons_of_mem _ ho))
      (connectOutputStep_inv P db btxID txi i output st hdb
        (hv output (List.mem_cons_self _ _)) hinv)

theorem connectTxOutputs_inv (P : ParserS) (db : Db) (bheight txi : Nat) (tx : TxS)
    (st st2 : ConnState) (hdb : dbNonneg db) (hv : ∀ o ∈ tx.vout, 0 ≤ o.valueSat)
    (hinv : connInv st) (h : connectTxOutputs P db bheight txi tx st = .ok st2) :
    connInv st2 := by
  obtain ⟨hbal, hrecs, hmap⟩ := hinv
  unfold connectTxOutputs at h
  cases hp : P.packTxid tx.txid with
  | error e => rw [hp] at h; exact absurd h (by simp)
  | ok btxID =>
    rw [hp] at h
    have h2 : st2 = connectOutputsFold P db btxID txi 0 tx.vout
        { st with blockTxIDs := st.blockTxIDs ++ [btxID],
                  recs := st.recs ++ [⟨bheight, [], tx.vout.map fun _ => (⟨[], false, 0⟩ : TxOutputS)⟩],
                  txAddressesMap := alistInsert st.txAddressesMap btxID (.inBlock txi) } := by
      injection h with h2
      exact h2.symm
    subst h2
    apply connectOutputsFold_inv P db btxID txi tx.vout 0 _ hdb hv
    refine ⟨hbal, ?_, mapExtNonneg_insert_inBlock _ _ _ hmap⟩
    apply recsNonneg_append _ _ hrecs
    intro o ho
    rcases List.mem_map.mp ho with ⟨x, _, hx⟩
    rw [← hx]

theorem connectOutputsLoop_inv (P : ParserS) (db : Db) (bheight : Nat) (txs : List TxS)
    (txi : Nat) (st st2 : ConnState) (hdb : dbNonneg db)
    (hv : ∀ tx ∈ txs, ∀ o ∈ tx.vout, 0 ≤ o.valueSat) (hinv : connInv st)
    (h : connectOutputsLoop P db bheight txi txs st = .ok st2) : connInv st2 := by
  induction txs generalizing txi st with
  | nil =>
    have : st = st2 := by injection h
    exact this ▸ hinv
  | cons tx rest ih =>
    unfold connectOutputsLoop at h
    cases hc : connectTxOutputs P db bheight txi tx st with
    | error e => rw [hc] at h; exact absurd h (by simp)
    | ok st1 =>
      rw [hc] at h
      exact ih (txi + 1) st1 (fun t ht => hv t (List.mem_cons_of_mem _ ht))
        (connectTxOutputs_inv P db bheight txi tx st st1 hdb
          (hv tx (List.mem_cons_self _ _)) hinv hc) h

theorem setRefOutputSpent_inv (st : ConnState) (key : BTxid) (r : TxRef) (vout : Nat)
    (hr : ∀ ta, r = .ext ta → ∀ o ∈ ta.outputs, 0 ≤ o.valueSat)
    (hinv : connInv st) : connInv (setRefOutputSpent st key r vout) := by
  obtain ⟨hbal, hrecs, hmap⟩ := hinv
  cases r with
  | inBlock j =>
    refine ⟨hbal, ?_, hmap⟩
    exact recsNonneg_updateRecOutput _ _ _ _ hrecs fun ta o hta ho => hrecs j ta hta o ho
  | ext ta =>
    refine ⟨hbal, hrecs, ?_⟩
    exact mapExtNonneg_insert_ext _ _ _ hmap
      (taSetOutputSpent_nonneg ta vout (hr ta rfl))

theorem connectInputGood_inv (db : Db) (spendingTxid : BTxid) (i : Nat) (addr : Addr)
    (value : Int) (st : ConnState) (hdb : dbNonneg db) (hv : 0 ≤ value)
    (hinv : connInv st) : connInv (connectInputGood db spendingTxid i addr value st) := by
  obtain ⟨hbal, hrecs, hmap⟩ := hinv
  unfold connectInputGood
  refine ⟨?_, hrecs, hmap⟩
  apply balancesNonneg_insert _ _ _ hbal
  have hl := loadedBalance_nonneg db st.balances addr hdb hbal
  exact subFromBalance_nonneg _ _ (bumpTxs_nonneg _ _ hl).1 hv

theorem connectInputApply_inv (db : Db) (spendingTxid : BTxid) (txi i : Nat) (btxID : BTxid)
    (r : TxRef) (input : VinS) (st1 : ConnState) (hdb : dbNonneg db)
    (hr : ∀ ta, r = .ext ta → ∀ o ∈ ta.outputs, 0 ≤ o.valueSat)
    (hinv : connInv st1) :
    connInv (connectInputApply db spendingTxid txi i btxID r input st1) := by
  unfold connectInputApply
  split
  · exact hinv
  next ita hita =>
    split
    · exact hinv
    next hlen =>
      split
      · exact hinv
      next ot hot =>
        have hotv : 0 ≤ ot.valueSat := by
          have hmem : ot ∈ ita.outputs := List.get?_mem hot
          cases r with
          | inBlock j =>
            have hj : st1.recs.get? j = some ita := hita
            exact hinv.2.1 j ita hj ot hmem
          | ext ta =>
            have hta : ta = ita := by
              have h5 := hita
              unfold derefTxRef at h5
              injection h5
            subst hta
            exact hr ta rfl ot hmem
        have hinv2 : connInv { st1 with
            recs := updateRecInput st1.recs txi i ⟨ot.addrDesc, ot.valueSat⟩ } :=
          ⟨hinv.1, recsNonneg_updateRecInput _ _ _ _ hinv.2.1, hinv.2.2⟩
        have hinv3 := setRefOutputSpent_inv _ btxID r input.vout hr hinv2
        split
        · exact hinv3
        · exact connectInputGood_inv db spendingTxid i ot.addrDesc ot.valueSat _ hdb hotv hinv3

theorem connectInputStep_inv (P : ParserS) (db : Db) (spendingTxid : BTxid) (txi i : Nat)
    (input : VinS) (st st2 : ConnState) (hdb : dbNonneg db) (hinv : connInv st)
    (h : connectInputStep P db spendingTxid txi i input st = .ok st2) : connInv st2 := by
  unfold connectInputStep at h
  cases hp : P.packTxid input.txid with
  | error e =>
    cases e with
    | missing =>
      rw [hp] at h
      have : st = st2 := by injection h
      exact this ▸ hinv
    | other => rw [hp] at h; exact absurd h (by simp)
  | ok btxID =>
    simp only [hp] at h
    cases hm : alistLookup st.txAddressesMap btxID with
    | some r =>
      rw [hm] at h
      have h2 : st2 = connectInputApply db spendingTxid txi i btxID r input st := by
        injection h with h2
        exact h2.symm
      subst h2
      apply connectInputApply_inv _ _ _ _ _ _ _ _ hdb _ hinv
      intro ta hta o ho
      exact hinv.2.2 btxID ta (hta ▸ hm) o ho
    | none =>
      rw [hm] at h
      cases hdbm : db.txAddresses btxID with
      | none =>
        rw [hdbm] at h
        have : st = st2 := by injection h
        exact this ▸ hinv
      | some ita =>
        rw [hdbm] at h
        have h2 : st2 = connectInputApply db spendingTxid txi i btxID (.ext ita) input
            { st with txAddressesMap := alistInsert st.txAddressesMap btxID (.ext ita) } := by
          injection h with h2
          exact h2.symm
        subst h2
        have hitav : ∀ o ∈ ita.outputs, 0 ≤ o.valueSat := hdb.2 btxID ita hdbm
        refine connectInputApply_inv db spendingTxid txi i btxID (.ext ita) input
          { st with txAddressesMap := alistInsert st.txAddressesMap btxID (.ext ita) } hdb
          ?_ ⟨hinv.1, hinv.2.1, mapExtNonneg_insert_ext _ _ _ hinv.2.2 hitav⟩
        intro ta hta o ho
        have h6 : ita = ta := by injection hta
        subst h6
        exact hitav o ho

theorem connectInputsFold_inv (P : ParserS) (db : Db) (spendingTxid : BTxid) (txi : Nat)
    (inputs : List VinS) (i : Nat) (st st2 : ConnState) (hdb : dbNonneg db)
    (hinv : connInv st)
    (h : connectInputsFold P db spendingTxid txi i inputs st = .ok st2) : connInv st2 := by
  induction inputs generalizing i st with
  | nil =>
    have : st = st2 := by injection h
    exact this ▸ hinv
  | cons input rest ih =>
    unfold connectInputsFold at h
    cases hc : connectInputStep P db spendingTxid txi i input st with
    | error e => rw [hc] at h; exact absurd h (by simp)
    | ok st1 =>
      rw [hc] at h
      exact ih (i + 1) st1
        (connectInputStep_inv P db spendingTxid txi i input st st1 hdb hinv hc) h

theorem connectTxInputs_inv (P : ParserS) (db : Db) (txi : Nat) (tx : TxS)
    (st st2 : ConnState) (hdb : dbNonneg db) (hinv : connInv st)
    (h : connectTxInputs P db txi tx st = .ok st2) : connInv st2 := by
  unfold connectTxInputs at h
  exact connectInputsFold_inv P db (st.blockTxIDs.getD txi []) txi tx.vin 0
    { st with recs := setRecInputs st.recs txi (tx.vin.map fun _ => (⟨[], 0⟩ : TxInputS)) }
    st2 hdb ⟨hinv.1, recsNonneg_setRecInputs _ _ _ hinv.2.1, hinv.2.2⟩ h

theorem connectInputsLoop_inv (P : ParserS) (db : Db) (txs : List TxS) (txi : Nat)
    (st st2 : ConnState) (hdb : dbNonneg db) (hinv : connInv st)
    (h : connectInputsLoop P db txi txs st = .ok st2) : connInv st2 := by
  induction txs generalizing txi st with
  | nil =>
    have : st = st2 := by injection h
    exact this ▸ hinv
  | cons tx rest ih =>
    unfold connectInputsLoop at h
    cases hc : connectTxInputs P db txi tx st with
    | error e => rw [hc] at h; exact absurd h (by simp)
    | ok st1 =>
      rw [hc] at h
      exact ih (txi + 1) st1 (connectTxInputs_inv P db txi tx st st1 hdb hinv hc) h

theorem processAddressesUTXO_inv (P : ParserS) (db : Db) (block : BlockS) (st : ConnState)
    (hdb : dbNonneg db) (hv : ∀ tx ∈ block.txs, ∀ o ∈ tx.vout, 0 ≤ o.valueSat)
    (h : processAddressesUTXO P db block = .ok st) : connInv st := by
  unfold processAddressesUTXO at h
  cases hc : connectOutputsLoop P db block.height 0 block.txs ⟨[], [], [], [], []⟩ with
  | error e => rw [hc] at h; exact absurd h (by simp)
  | ok st1 =>
    rw [hc] at h
    have hinit : connInv (⟨[], [], [], [], []⟩ : ConnState) := by
      refine ⟨?_, ?_, ?_⟩
      · intro a ab hab
        exact absurd hab (by simp [alistLookup])
      · intro j ta hta
        exact absurd hta (by simp)
      · intro k ta hta
        exact absurd hta (by simp [alistLookup])
    exact connectInputsLoop_inv P db block.txs 0 st1 st hdb
      (connectOutputsLoop_inv P db block.height block.txs 0 _ st1 hdb hv hinit hc) h

/-- Non-negativity of the cached (possibly `nil`) balances of a range
disconnect. -/
def discBalancesNonneg (bal : List (Addr × Option AddrBalanceS)) : Prop :=
  ∀ a ab, alistLookup bal a = some (some ab) → 0 ≤ ab.sentSat ∧ 0 ≤ ab.balanceSat

theorem discBalancesNonneg_insert (bal : List (Addr × Option AddrBalanceS)) (a : Addr)
    (ob : Option AddrBalanceS) (h : discBalancesNonneg bal)
    (hob : ∀ ab, ob = some ab → 0 ≤ ab.sentSat ∧ 0 ≤ ab.balanceSat) :
    discBalancesNonneg (alistInsert bal a ob) := by
  intro a2 ab hget
  rw [alistLookup_insert_cases] at hget
  by_cases ha : a = a2
  · rw [if_pos ha] at hget
    have h2 : ob = some ab := by injection hget
    exact hob ab h2
  · rw [if_neg ha] at hget
    exact h a2 ab hget

theorem discGetBalance_nonneg (db : Db) (bal : List (Addr × Option AddrBalanceS)) (a : Addr)
    (hdb : dbNonneg db) (hb : discBalancesNonneg bal) :
    (∀ ab, (discGetBalance db bal a).1 = some ab → 0 ≤ ab.sentSat ∧ 0 ≤ ab.balanceSat) ∧
    discBalancesNonneg (discGetBalance db bal a).2 := by
  unfold discGetBalance
  cases hm : alistLookup bal a with
  | some b =>
    constructor
    · intro ab hab
      have hab2 : b = some ab := hab
      rw [hab2] at hm
      exact hb a ab hm
    · intro a2 ab hab
      exact hb a2 ab hab
  | none =>
    constructor
    · intro ab hab
      have hab2 : db.addressBalance a = some ab := hab
      exact hdb.1 a ab hab2
    · intro a2 ab hab
      have hab2 : alistLookup (alistInsert bal a (db.addressBalance a)) a2
          = some (some ab) := hab
      rw [alistLookup_insert_cases] at hab2
      by_cases ha : a = a2
      · rw [if_pos ha] at hab2
        have h2 : db.addressBalance a = some ab := by injection hab2
        exact hdb.1 a ab h2
      · rw [if_neg ha] at hab2
        exact hb a2 ab hab2

theorem clampSub_nonneg (x y : Int) : (0 : Int) ≤ if x - y < 0 then 0 else x - y := by
  split <;> omega

theorem decTxs_nonneg (e : Bool) (bb : AddrBalanceS)
    (h : 0 ≤ bb.sentSat ∧ 0 ≤ bb.balanceSat) :
    0 ≤ (decTxs e bb).sentSat ∧ 0 ≤ (decTxs e bb).balanceSat := by
  unfold decTxs
  split
  · exact h
  · exact h

theorem discUndoInputBalance_nonneg (db : Db) (e : Bool) (t : TxInputS)
    (bal : List (Addr × Option AddrBalanceS)) (hdb : dbNonneg db) (hv : 0 ≤ t.valueSat)
    (hb : discBalancesNonneg bal) :
    discBalancesNonneg (discUndoInputBalance db e t bal) := by
  have hg := discGetBalance_nonneg db bal t.addrDesc hdb hb
  unfold discUndoInputBalance
  split
  next m2 hp =>
    have h4 := hg.2
    rw [hp] at h4
    exact h4
  next bb m2 hp =>
    have h4 := hg.2
    rw [hp] at h4
    apply discBalancesNonneg_insert _ _ _ h4
    intro ab hab
    injection hab with h2
    rw [← h2]
    have hbbn : 0 ≤ bb.sentSat ∧ 0 ≤ bb.balanceSat := by
      apply hg.1 bb
      rw [hp]
    have hbb2 := decTxs_nonneg e bb hbbn
    constructor
    · exact clampSub_nonneg _ _
    · show (0 : Int) ≤ (decTxs e bb).balanceSat + t.valueSat
      have h5 := hbb2.2
      omega

theorem discUndoOutputBalance_nonneg (db : Db) (e : Bool) (t : TxOutputS)
    (bal : List (Addr × Option AddrBalanceS)) (hdb : dbNonneg db)
    (hb : discBalancesNonneg bal) :
    discBalancesNonneg (discUndoOutputBalance db e t bal) := by
  have hg := discGetBalance_nonneg db bal t.addrDesc hdb hb
  unfold discUndoOutputBalance
  split
  next m2 hp =>
    have h4 := hg.2
    rw [hp] at h4
    exact h4
  next bb m2 hp =>
    have h4 := hg.2
    rw [hp] at h4
    apply discBalancesNonneg_insert _ _ _ h4
    intro ab hab
    injection hab with h2
    rw [← h2]
    have hbbn : 0 ≤ bb.sentSat ∧ 0 ≤ bb.balanceSat := by
      apply hg.1 bb
      rw [hp]
    have hbb2 := decTxs_nonneg e bb hbbn
    constructor
    · show (0 : Int) ≤ (decTxs e bb).sentSat
      exact hbb2.1
    · exact clampSub_nonneg _ _

theorem discClearSpent_balances (db : Db) (inp : OutpointS) (st2 st3 : DiscState)
    (h : discClearSpent db inp st2 = some st3) : st3.balances = st2.balances := by
  unfold discClearSpent at h
  split at h
  · exact absurd h (by simp)
  next sarec m2 hp =>
    by_cases hi : inp.index < 0
    · rw [if_pos hi] at h
      exact absurd h (by simp)
    · rw [if_neg hi] at h
      by_cases hl : sarec.outputs.length ≤ inp.index.toNat
      · rw [if_pos hl] at h
        exact absurd h (by simp)
      · rw [if_neg hl] at h
        injection h with h2
        rw [← h2]

theorem discInputsLoop_nonneg (db : Db) (inputs : List OutpointS) (ts : List TxInputS) :
    ∀ i seen st seen2 st2, dbNonneg db → (∀ t ∈ ts, 0 ≤ t.valueSat) →
    discBalancesNonneg st.balances →
    discInputsLoop db inputs i ts seen st = some (seen2, st2) →
    discBalancesNonneg st2.balances := by
  induction ts with
  | nil =>
    intro i seen st seen2 st2 _ _ hb h
    have h2 : (seen, st) = (seen2, st2) := by injection h
    have h3 : st = st2 := by injection h2
    exact h3 ▸ hb
  | cons t rest ih =>
    intro i seen st seen2 st2 hdb hv hb h
    unfold discInputsLoop at h
    by_cases hlen : t.addrDesc.length = 0
    · rw [if_pos hlen] at h
      exact ih (i + 1) seen st seen2 st2 hdb
        (fun x hx => hv x (List.mem_cons_of_mem _ hx)) hb h
    · rw [if_neg hlen] at h
      cases hg : inputs.get? i with
      | none =>
        rw [hg] at h
        exact absurd h (by simp)
      | some inp =>
        simp only [hg] at h
        cases hc : discClearSpent db inp { st with balances := discUndoInputBalance db (seen.any fun a => a = t.addrDesc) t st.balances } with
        | none =>
          rw [hc] at h
          exact absurd h (by simp)
        | some st3 =>
          simp only [hc] at h
          have hb3 : discBalancesNonneg st3.balances := by
            rw [discClearSpent_balances db inp _ st3 hc]
            exact discUndoInputBalance_nonneg db _ t st.balances hdb
              (hv t (List.mem_cons_self _ _)) hb
          exact ih (i + 1) _ st3 seen2 st2 hdb
            (fun x hx => hv x (List.mem_cons_of_mem _ hx)) hb3 h

theorem discOutputsLoop_nonneg (db : Db) (ts : List TxOutputS) :
    ∀ seen st, dbNonneg db → discBalancesNonneg st.balances →
    discBalancesNonneg (discOutputsLoop db ts seen st).2.balances := by
  induction ts with
  | nil =>
    intro seen st _ hb
    exact hb
  | cons t rest ih =>
    intro seen st hdb hb
    unfold discOutputsLoop
    by_cases hlen : t.addrDesc.length = 0
    · rw [if_pos hlen]
      exact ih seen st hdb hb
    · rw [if_neg hlen]
      exact ih _ _ hdb (discUndoOutputBalance_nonneg db _ t st.balances hdb hb)

theorem disconnectTxAddresses_nonneg (db : Db) (height : Nat) (inputs : List OutpointS)
    (txa : TxAddressesS) (st st2 : DiscState) (hdb : dbNonneg db)
    (hv : ∀ t ∈ txa.inputs, 0 ≤ t.valueSat) (hb : discBalancesNonneg st.balances)
    (h : disconnectTxAddresses db height inputs txa st = some st2) :
    discBalancesNonneg st2.balances := by
  unfold disconnectTxAddresses at h
  cases hi : discInputsLoop db inputs 0 txa.inputs [] st with
  | none =>
    rw [hi] at h
    exact absurd h (by simp)
  | some p =>
    obtain ⟨seen1, st1⟩ := p
    simp only [hi] at h
    have h2 : some { (discOutputsLoop db txa.outputs seen1 st1).2 with
        wb := (discOutputsLoop db txa.outputs seen1 st1).2.wb ++
          (discOutputsLoop db txa.outputs seen1 st1).1.map
            fun a => BatchOp.deleteAddresses (packAddressKey a height) } = some st2 := h
    injection h2 with h3
    rw [← h3]
    exact discOutputsLoop_nonneg db txa.outputs seen1 st1 hdb
      (discInputsLoop_nonneg db inputs txa.inputs 0 [] st seen1 st1 hdb hv hb hi)

/-- A one-byte-txid parser whose address descriptor is the script byte:
enough to drive one output through the indexed path. -/
def c6Parser : ParserS :=
  { packTxid := fun t => .ok [t % 256]
    getAddrDescFromVout := fun v => .ok [v.script % 256]
    packBlockHash := fun h => .ok [h % 256]
    packedTxidLen := 1
    keepBlockAddresses := 300 }

/-- An empty store. -/
def c6Db : Db :=
  { height := fun _ => none, addresses := fun _ => none, txAddresses := fun _ => none,
    addressBalance := fun _ => none, blockTxs := fun _ => [], transactions := fun _ => none }

/-- One coinbase-style transaction paying 5 to script `65`. -/
def c6Block : BlockS :=
  { height := 10, hash := 1, time := 0, size := 0,
    txs := [{ txid := 7, vin := [], vout := [{ n := 0, valueSat := 5, script := 65 }] }] }

/-- The connect state produced for `c6Block`. -/
def c6ConnSt : ConnState :=
  ⟨[[7]], [⟨10, [], [⟨[65], false, 5⟩]⟩], [([7], .inBlock 0)],
   [([65], [⟨[7], 0⟩])], [([65], ⟨1, 0, 5⟩)]⟩

/-- A store holding the spent transaction `[9]` (one output of 3 to
address `[66]`) and the balance of `[66]`. -/
def c6DiscDb : Db :=
  { height := fun _ => none, addresses := fun _ => none,
    txAddresses := fun k => if k = [9] then some ⟨1, [], [⟨[66], true, 3⟩]⟩ else none,
    addressBalance := fun a => if a = [66] then some ⟨5, 10, 0⟩ else none,
    blockTxs := fun _ => [], transactions := fun _ => none }

/-- The tx-addresses record being disconnected: one input of 3 from
address `[66]`. -/
def c6DiscTxa : TxAddressesS := ⟨2, [⟨[66], 3⟩], []⟩

/-- The disconnect state produced for `c6DiscTxa`. -/
def c6DiscSt : DiscState :=
  ⟨[.deleteAddresses [66, 0, 0, 0, 2]], [([9], some ⟨1, [], [⟨[66], false, 3⟩]⟩)],
   [([66], some ⟨4, 7, 3⟩)], []⟩

/-- C6: every address balance produced by connect
(`processAddressesUTXO`, given non-negative stored balances and output
values) or by disconnect (`disconnectTxAddresses`, given non-negative
cached balances and recorded input values) has non-negative balance and
sent fields: each subtraction that would drive a field below zero is
clamped to exactly zero and processing continues. -/
theorem balances_never_negative :
    (∀ (P : ParserS) (db : Db) (block : BlockS) (st : ConnState), dbNonneg db →
      (∀ tx ∈ block.txs, ∀ o ∈ tx.vout, 0 ≤ o.valueSat) →
      processAddressesUTXO P db block = .ok st →
      ∀ a ab, alistLookup st.balances a = some ab →
        0 ≤ ab.sentSat ∧ 0 ≤ ab.balanceSat) ∧
    (∀ (db : Db) (height : Nat) (inputs : List OutpointS) (txa : TxAddressesS)
      (st st2 : DiscState), dbNonneg db → (∀ t ∈ txa.inputs, 0 ≤ t.valueSat) →
      discBalancesNonneg st.balances →
      disconnectTxAddresses db height inputs txa st = some st2 →
      ∀ a ab, alistLookup st2.balances a = some (some ab) →
        0 ≤ ab.sentSat ∧ 0 ≤ ab.balanceSat) := by
  constructor
  · intro P db block st hdb hv h a ab hab
    exact (processAddressesUTXO_inv P db block st hdb hv h).1 a ab hab
  · intro db height inputs txa st st2 hdb hv hb h a ab hab
    exact disconnectTxAddresses_nonneg db height inputs txa st st2 hdb hv hb h a ab hab

theorem balances_never_negative_witness :
    (processAddressesUTXO c6Parser c6Db c6Block = Except.ok c6ConnSt ∧
     alistLookup c6ConnSt.balances [65] = some ⟨1, 0, 5⟩ ∧
     0 ≤ (⟨1, 0, 5⟩ : AddrBalanceS).sentSat ∧ 0 ≤ (⟨1, 0, 5⟩ : AddrBalanceS).balanceSat) ∧
    (disconnectTxAddresses c6DiscDb 2 [⟨[9], 0⟩] c6DiscTxa ⟨[], [], [], []⟩ = some c6DiscSt ∧
     alistLookup c6DiscSt.balances [66] = some (some ⟨4, 7, 3⟩) ∧
     0 ≤ (⟨4, 7, 3⟩ : AddrBalanceS).sentSat ∧ 0 ≤ (⟨4, 7, 3⟩ : AddrBalanceS).balanceSat) := by
  have hdb1 : dbNonneg c6Db := by
    constructor
    · intro a ab hab
      exact Option.noConfusion hab
    · intro k ta hta
      exact Option.noConfusion hta
  have hv1 : ∀ tx ∈ c6Block.txs, ∀ o ∈ tx.vout, 0 ≤ o.valueSat := by decide
  have hdb2 : dbNonneg c6DiscDb := by
    constructor
    · intro a ab hab
      have hab2 : (if a = [66] then some (⟨5, 10, 0⟩ : AddrBalanceS) else none) = some ab := hab
      by_cases ha : a = [66]
      · rw [if_pos ha] at hab2
        injection hab2 with h2
        rw [← h2]
        decide
      · rw [if_neg ha] at hab2
        exact Option.noConfusion hab2
    · intro k ta hta
      have hta2 : (if k = [9] then some (⟨1, [], [⟨[66], true, 3⟩]⟩ : TxAddressesS) else none) = some ta := hta
      by_cases hk : k = [9]
      · rw [if_pos hk] at hta2
        injection hta2 with h2
        rw [← h2]
        decide
      · rw [if_neg hk] at hta2
        exact Option.noConfusion hta2
  have hv2 : ∀ t ∈ c6DiscTxa.inputs, 0 ≤ t.valueSat := by decide
  have hb0 : discBalancesNonneg (⟨[], [], [], []⟩ : DiscState).balances := by
    intro a ab hab
    exact Option.noConfusion hab
  have h1 := balances_never_negative.1 c6Parser c6Db c6Block c6ConnSt hdb1 hv1 rfl
    [65] ⟨1, 0, 5⟩ rfl
  have h2 := balances_never_negative.2 c6DiscDb 2 [⟨[9], 0⟩] c6DiscTxa ⟨[], [], [], []⟩
    c6DiscSt hdb2 hv2 hb0 rfl [66] ⟨4, 7, 3⟩ rfl
  exact ⟨⟨rfl, rfl, h1.1, h1.2⟩, ⟨rfl, rfl, h2.1, h2.2⟩⟩

/-- A parser whose descriptor for script `0` fails to decode and whose
descriptor for script `s` otherwise has length `s`. -/
def c8Parser : ParserS :=
  { packTxid := fun t => .ok [t % 256]
    getAddrDescFromVout := fun v =>
      if v.script = 0 then .error () else .ok (List.replicate v.script 7)
    packBlockHash := fun h => .ok [h % 256]
    packedTxidLen := 1
    keepBlockAddresses := 300 }

/-- A connect state holding one freshly seeded record with one
empty-address output, as `connectTxOutputs` creates it. -/
def c8St : ConnState :=
  ⟨[[3]], [⟨4, [], [⟨[], false, 0⟩]⟩], [([3], .inBlock 0)], [], []⟩

/-- C8: an output whose address descriptor fails to decode, is empty or
is longer than `maxAddrDescLen = 1024` bytes reduces to the skip step:
only the output value is stored into the (empty-address) record slot,
and the address index, the balances and the transaction map are
untouched. -/
theorem connect_skips_bad_output_descriptors (P : ParserS) (db : Db) (btxID : BTxid)
    (txi i : Nat) (output : VoutS) (st : ConnState) (e : Unit) (addrDesc : Addr)
    (hbad : P.getAddrDescFromVout output = .error e ∨
      (P.getAddrDescFromVout output = .ok addrDesc ∧
        (addrDesc.length = 0 ∨ maxAddrDescLen < addrDesc.length))) :
    connectOutputStep P db btxID txi i output st = connectOutputSkip txi i output.valueSat st ∧
    (connectOutputSkip txi i output.valueSat st).addresses = st.addresses ∧
    (connectOutputSkip txi i output.valueSat st).balances = st.balances ∧
    (connectOutputSkip txi i output.valueSat st).txAddressesMap = st.txAddressesMap ∧
    ∀ r o, st.recs.get? txi = some r → r.outputs.get? i = some o →
      (connectOutputSkip txi i output.valueSat st).recs =
        st.recs.set txi { r with outputs := r.outputs.set i ⟨o.addrDesc, o.spent, output.valueSat⟩ } := by
  refine ⟨?_, rfl, rfl, rfl, ?_⟩
  · unfold connectOutputStep
    rcases hbad with he | ⟨ha, hlen⟩
    · rw [he]
    · rw [ha]
      show (if addrDesc.length = 0 ∨ maxAddrDescLen < addrDesc.length then
          connectOutputSkip txi i output.valueSat st
        else connectOutputGood db btxID txi i output.valueSat addrDesc st) =
        connectOutputSkip txi i output.valueSat st
      rw [if_pos hlen]
  · intro r o hr ho
    show updateRecOutput st.recs txi i _ =
      st.recs.set txi { r with outputs := r.outputs.set i ⟨o.addrDesc, o.spent, output.valueSat⟩ }
    unfold updateRecOutput
    rw [hr]
    show (match r.outputs.get? i with
      | none => st.recs
      | some o => st.recs.set txi { r with outputs := r.outputs.set i ⟨o.addrDesc, o.spent, output.valueSat⟩ }) = _
    rw [ho]

theorem connect_skips_bad_output_descriptors_witness :
    maxAddrDescLen < (List.replicate 1025 (7 : Nat)).length ∧
    connectOutputStep c8Parser c6Db [3] 0 0 ⟨0, 9, 1025⟩ c8St = connectOutputSkip 0 0 9 c8St ∧
    (connectOutputSkip 0 0 9 c8St).addresses = c8St.addresses ∧
    (connectOutputSkip 0 0 9 c8St).balances = c8St.balances ∧
    (connectOutputSkip 0 0 9 c8St).recs = [⟨4, [], [⟨[], false, 9⟩]⟩] := by
  have hlen : maxAddrDescLen < (List.replicate 1025 (7 : Nat)).length := by
    rw [List.length_replicate]
    norm_num [maxAddrDescLen]
  have h := connect_skips_bad_output_descriptors c8Parser c6Db [3] 0 0 ⟨0, 9, 1025⟩ c8St ()
    (List.replicate 1025 7) (Or.inr ⟨rfl, Or.inr hlen⟩)
  refine ⟨hlen, h.1, h.2.1, h.2.2.1, ?_⟩
  have h5 := h.2.2.2.2 ⟨4, [], [⟨[], false, 0⟩]⟩ ⟨[], false, 0⟩ rfl rfl
  rw [h5]
  rfl

/-- The `Txs` counter an address currently shows to
`processAddressesUTXO` (working map, else store, else zero). -/
def balTxsView (db : Db) (st : ConnState) (a : Addr) : Nat :=
  (loadedBalance db st.balances a).txs

/-- The balance amount an address currently shows. -/
def balSatView (db : Db) (st : ConnState) (a : Addr) : Int :=
  (loadedBalance db st.balances a).balanceSat

/-- Whether the address already has an outpoint of `btxID` recorded —
exactly the `processedInTx` test both passes make. -/
def touchedBy (st : ConnState) (a : Addr) (btxID : BTxid) : Bool :=
  match alistLookup st.addresses a with
  | none => false
  | some ops => processedInTx ops btxID

/-- Whether one output reaches the indexed path for address `a`: its
descriptor decodes to `a` and is neither empty nor oversized. -/
def outTouch (P : ParserS) (a : Addr) (o : VoutS) : Bool :=
  match P.getAddrDescFromVout o with
  | .error _ => false
  | .ok d => if d.length = 0 ∨ maxAddrDescLen < d.length then false else decide (d = a)

/-- The values of the outputs of one transaction that touch address
`a`. -/
def addrOutVals (P : ParserS) (a : Addr) (outputs : List VoutS) : List Int :=
  (outputs.filter (outTouch P a)).map VoutS.valueSat

theorem bumpTxs_balanceSat (p : Bool) (ab : AddrBalanceS) :
    (bumpTxs p ab).balanceSat = ab.balanceSat := by
  unfold bumpTxs
  split
  · rfl
  · rfl

theorem loadedBalance_insert_self (db : Db) (bal : List (Addr × AddrBalanceS)) (a : Addr)
    (ab : AddrBalanceS) : loadedBalance db (alistInsert bal a ab) a = ab := by
  unfold loadedBalance
  rw [alistLookup_insert_self]

theorem loadedBalance_insert_ne (db : Db) (bal : List (Addr × AddrBalanceS)) (d a : Addr)
    (ab : AddrBalanceS) (h : d ≠ a) :
    loadedBalance db (alistInsert bal d ab) a = loadedBalance db bal a := by
  unfold loadedBalance
  rw [alistLookup_insert_ne bal d a ab h]

theorem processedInTx_append (l : List OutpointS) (btxID : BTxid) (i : Int) :
    processedInTx (l ++ [(⟨btxID, i⟩ : OutpointS)]) btxID = true := by
  unfold processedInTx
  rw [List.any_append]
  simp

theorem connectOutputGood_self (db : Db) (btxID : BTxid) (txi i : Nat) (v : Int) (a : Addr)
    (st : ConnState) :
    balTxsView db (connectOutputGood db btxID txi i v a st) a
      = (if touchedBy st a btxID then balTxsView db st a
         else (balTxsView db st a + 1) % 2 ^ 32) ∧
    balSatView db (connectOutputGood db btxID txi i v a st) a = balSatView db st a + v ∧
    touchedBy (connectOutputGood db btxID txi i v a st) a btxID = true := by
  refine ⟨?_, ?_, ?_⟩
  · show (loadedBalance db (alistInsert st.balances a (addToBalance (bumpTxs (touchedBy st a btxID) (loadedBalance db st.balances a)) v)) a).txs = _
    rw [loadedBalance_insert_self]
    show (bumpTxs (touchedBy st a btxID) (loadedBalance db st.balances a)).txs = _
    cases htb : touchedBy st a btxID
    · show ((loadedBalance db st.balances a).txs + 1) % 2 ^ 32 = _
      simp [balTxsView]
    · show (loadedBalance db st.balances a).txs = _
      simp [balTxsView]
  · show (loadedBalance db (alistInsert st.balances a (addToBalance (bumpTxs (touchedBy st a btxID) (loadedBalance db st.balances a)) v)) a).balanceSat = _
    rw [loadedBalance_insert_self]
    show (bumpTxs (touchedBy st a btxID) (loadedBalance db st.balances a)).balanceSat + v = _
    rw [bumpTxs_balanceSat]
    rfl
  · show touchedBy { st with recs := _, addresses := alistInsert st.addresses a ((alistLookup st.addresses a).getD [] ++ [(⟨btxID, (i : Int)⟩ : OutpointS)]), balances := _ } a btxID = true
    unfold touchedBy
    rw [alistLookup_insert_self]
    show processedInTx ((alistLookup st.addresses a).getD [] ++ [(⟨btxID, (i : Int)⟩ : OutpointS)]) btxID = true
    exact processedInTx_append _ _ _

theorem connectOutputGood_other (db : Db) (btxID : BTxid) (txi i : Nat) (v : Int) (d a : Addr)
    (st : ConnState) (hne : d ≠ a) :
    balTxsView db (connectOutputGood db btxID txi i v d st) a = balTxsView db st a ∧
    balSatView db (connectOutputGood db btxID txi i v d st) a = balSatView db st a ∧
    touchedBy (connectOutputGood db btxID txi i v d st) a btxID = touchedBy st a btxID := by
  refine ⟨?_, ?_, ?_⟩
  · show (loadedBalance db (alistInsert st.balances d _) a).txs = _
    rw [loadedBalance_insert_ne db st.balances d a _ hne]
    rfl
  · show (loadedBalance db (alistInsert st.balances d _) a).balanceSat = _
    rw [loadedBalance_insert_ne db st.balances d a _ hne]
    rfl
  · show touchedBy { st with recs := _, addresses := alistInsert st.addresses d _, balances := _ } a btxID = _
    unfold touchedBy
    rw [alistLookup_insert_ne st.addresses d a _ hne]

theorem connectOutputStep_eq_of_error (P : ParserS) (db : Db) (btxID : BTxid) (txi i : Nat)
    (output : VoutS) (st : ConnState) (e : Unit)
    (hd : P.getAddrDescFromVout output = .error e) :
    connectOutputStep P db btxID txi i output st = connectOutputSkip txi i output.valueSat st := by
  unfold connectOutputStep
  rw [hd]

theorem connectOutputStep_eq_of_ok (P : ParserS) (db : Db) (btxID : BTxid) (txi i : Nat)
    (output : VoutS) (st : ConnState) (d : Addr)
    (hd : P.getAddrDescFromVout output = .ok d) :
    connectOutputStep P db btxID txi i output st =
      if d.length = 0 ∨ maxAddrDescLen < d.length then connectOutputSkip txi i output.valueSat st
      else connectOutputGood db btxID txi i output.valueSat d st := by
  unfold connectOutputStep
  rw [hd]

theorem connectOutputStep_view (P : ParserS) (db : Db) (btxID : BTxid) (txi i : Nat)
    (output : VoutS) (a : Addr) (st : ConnState) :
    (outTouch P a output = false →
      balTxsView db (connectOutputStep P db btxID txi i output st) a = balTxsView db st a ∧
      balSatView db (connectOutputStep P db btxID txi i output st) a = balSatView db st a ∧
      touchedBy (connectOutputStep P db btxID txi i output st) a btxID
        = touchedBy st a btxID) ∧
    (outTouch P a output = true →
      balTxsView db (connectOutputStep P db btxID txi i output st) a
        = (if touchedBy st a btxID then balTxsView db st a
           else (balTxsView db st a + 1) % 2 ^ 32) ∧
      balSatView db (connectOutputStep P db btxID txi i output st) a
        = balSatView db st a + output.valueSat ∧
      touchedBy (connectOutputStep P db btxID txi i output st) a btxID = true) := by
  cases hd : P.getAddrDescFromVout output with
  | error e =>
    rw [connectOutputStep_eq_of_error P db btxID txi i output st e hd]
    constructor
    · intro _
      exact ⟨rfl, rfl, rfl⟩
    · intro h
      have h2 : outTouch P a output = false := by
        unfold outTouch
        rw [hd]
      rw [h2] at h
      exact Bool.noConfusion h
  | ok d =>
    rw [connectOutputStep_eq_of_ok P db btxID txi i output st d hd]
    by_cases hlen : d.length = 0 ∨ maxAddrDescLen < d.length
    · rw [if_pos hlen]
      constructor
      · intro _
        exact ⟨rfl, rfl, rfl⟩
      · intro h
        have h2 : outTouch P a output = false := by
          unfold outTouch
          rw [hd]
          show (if d.length = 0 ∨ maxAddrDescLen < d.length then false else decide (d = a)) = false
          rw [if_pos hlen]
        rw [h2] at h
        exact Bool.noConfusion h
    · rw [if_neg hlen]
      have houtT : outTouch P a output = decide (d = a) := by
        unfold outTouch
        rw [hd]
        show (if d.length = 0 ∨ maxAddrDescLen < d.length then false else decide (d = a)) = _
        rw [if_neg hlen]
      by_cases hda : d = a
      · subst hda
        constructor
        · intro h
          rw [houtT] at h
          simp at h
        · intro _
          exact connectOutputGood_self db btxID txi i output.valueSat d st
      · constructor
        · intro _
          exact connectOutputGood_other db btxID txi i output.valueSat d a st hda
        · intro h
          rw [houtT] at h
          simp at h
          exact absurd h hda

theorem connectOutputsFold_cons (P : ParserS) (db : Db) (btxID : BTxid) (txi i : Nat)
    (o : VoutS) (rest : List VoutS) (st : ConnState) :
    connectOutputsFold P db btxID txi i (o :: rest) st
      = connectOutputsFold P db btxID txi (i + 1) rest (connectOutputStep P db btxID txi i o st) :=
  rfl

theorem connectOutputsFold_touched (P : ParserS) (db : Db) (btxID : BTxid) (txi : Nat)
    (a : Addr) (outputs : List VoutS) :
    ∀ i st, touchedBy st a btxID = true →
    balTxsView db (connectOutputsFold P db btxID txi i outputs st) a = balTxsView db st a ∧
    balSatView db (connectOutputsFold P db btxID txi i outputs st) a
      = balSatView db st a + (addrOutVals P a outputs).sum ∧
    touchedBy (connectOutputsFold P db btxID txi i outputs st) a btxID = true := by
  induction outputs with
  | nil =>
    intro i st ht
    refine ⟨rfl, ?_, ht⟩
    show balSatView db st a = balSatView db st a + ([] : List Int).sum
    simp
  | cons o rest ih =>
    intro i st ht
    rw [connectOutputsFold_cons]
    have hv := connectOutputStep_view P db btxID txi i o a st
    cases hto : outTouch P a o
    · have h1 := hv.1 hto
      have hvals : addrOutVals P a (o :: rest) = addrOutVals P a rest := by
        simp [addrOutVals, List.filter_cons, hto]
      have hrec := ih (i + 1) (connectOutputStep P db btxID txi i o st)
        (by rw [h1.2.2]; exact ht)
      refine ⟨?_, ?_, hrec.2.2⟩
      · rw [hrec.1, h1.1]
      · rw [hrec.2.1, h1.2.1, hvals]
    · have h2 := hv.2 hto
      have htx : balTxsView db (connectOutputStep P db btxID txi i o st) a
          = balTxsView db st a := by
        rw [h2.1, if_pos ht]
      have hvals : addrOutVals P a (o :: rest) = o.valueSat :: addrOutVals P a rest := by
        simp [addrOutVals, List.filter_cons, hto]
      have hrec := ih (i + 1) (connectOutputStep P db btxID txi i o st) h2.2.2
      refine ⟨?_, ?_, hrec.2.2⟩
      · rw [hrec.1, htx]
      · rw [hrec.2.1, h2.2.1, hvals, List.sum_cons]
        ring

theorem connectOutputsFold_fresh (P : ParserS) (db : Db) (btxID : BTxid) (txi : Nat)
    (a : Addr) (outputs : List VoutS) :
    ∀ i st, touchedBy st a btxID = false →
    (addrOutVals P a outputs = [] →
      balTxsView db (connectOutputsFold P db btxID txi i outputs st) a = balTxsView db st a ∧
      balSatView db (connectOutputsFold P db btxID txi i outputs st) a = balSatView db st a ∧
      touchedBy (connectOutputsFold P db btxID txi i outputs st) a btxID = false) ∧
    (addrOutVals P a outputs ≠ [] →
      balTxsView db (connectOutputsFold P db btxID txi i outputs st) a
        = (balTxsView db st a + 1) % 2 ^ 32 ∧
      balSatView db (connectOutputsFold P db btxID txi i outputs st) a
        = balSatView db st a + (addrOutVals P a outputs).sum ∧
      touchedBy (connectOutputsFold P db btxID txi i outputs st) a btxID = true) := by
  induction outputs with
  | nil =>
    intro i st hf
    constructor
    · intro _
      exact ⟨rfl, rfl, hf⟩
    · intro hne
      exact absurd rfl hne
  | cons o rest ih =>
    intro i st hf
    rw [connectOutputsFold_cons]
    have hv := connectOutputStep_view P db btxID txi i o a st
    cases hto : outTouch P a o
    · have h1 := hv.1 hto
      have hvals : addrOutVals P a (o :: rest) = addrOutVals P a rest := by
        simp [addrOutVals, List.filter_cons, hto]
      have hrec := ih (i + 1) (connectOutputStep P db btxID txi i o st)
        (by rw [h1.2.2]; exact hf)
      constructor
      · intro hnil
        rw [hvals] at hnil
        have h3 := hrec.1 hnil
        exact ⟨by rw [h3.1, h1.1], by rw [h3.2.1, h1.2.1], h3.2.2⟩
      · intro hne
        rw [hvals] at hne
        have h3 := hrec.2 hne
        refine ⟨by rw [h3.1, h1.1], ?_, h3.2.2⟩
        rw [h3.2.1, h1.2.1, hvals]
    · have h2 := hv.2 hto
      have hvals : addrOutVals P a (o :: rest) = o.valueSat :: addrOutVals P a rest := by
        simp [addrOutVals, List.filter_cons, hto]
      constructor
      · intro hnil
        rw [hvals] at hnil
        exact absurd hnil (by simp)
      · intro _
        have htx : balTxsView db (connectOutputStep P db btxID txi i o st) a
            = (balTxsView db st a + 1) % 2 ^ 32 := by
          rw [h2.1, if_neg (by simp [hf])]
        have hrec := connectOutputsFold_touched P db btxID txi a rest (i + 1)
          (connectOutputStep P db btxID txi i o st) h2.2.2
        refine ⟨by rw [hrec.1, htx], ?_, hrec.2.2⟩
        rw [hrec.2.1, h2.2.1, hvals, List.sum_cons]
        ring

theorem connectTxOutputs_touch (P : ParserS) (db : Db) (bheight txi : Nat) (tx : TxS)
    (st st2 : ConnState) (btxID : BTxid) (a : Addr)
    (hpack : P.packTxid tx.txid = .ok btxID)
    (h : connectTxOutputs P db bheight txi tx st = .ok st2)
    (hf : touchedBy st a btxID = false)
    (hne : addrOutVals P a tx.vout ≠ []) :
    balTxsView db st2 a = (balTxsView db st a + 1) % 2 ^ 32 ∧
    balSatView db st2 a = balSatView db st a + (addrOutVals P a tx.vout).sum ∧
    touchedBy st2 a btxID = true := by
  unfold connectTxOutputs at h
  simp only [hpack] at h
  injection h with h2
  rw [← h2]
  exact (connectOutputsFold_fresh P db btxID txi a tx.vout 0 { st with blockTxIDs := st.blockTxIDs ++ [btxID], recs := st.recs ++ [⟨bheight, [], tx.vout.map fun _ => (⟨[], false, 0⟩ : TxOutputS)⟩], txAddressesMap := alistInsert st.txAddressesMap btxID (.inBlock txi) } hf).2 hne

theorem connectInputGood_self (db : Db) (btxID : BTxid) (i : Nat) (a : Addr) (v : Int)
    (st : ConnState) :
    balTxsView db (connectInputGood db btxID i a v st) a
      = (if touchedBy st a btxID then balTxsView db st a
         else (balTxsView db st a + 1) % 2 ^ 32) ∧
    touchedBy (connectInputGood db btxID i a v st) a btxID = true := by
  constructor
  · show (loadedBalance db (alistInsert st.balances a (subFromBalance (bumpTxs (touchedBy st a btxID) (loadedBalance db st.balances a)) v)) a).txs = _
    rw [loadedBalance_insert_self]
    show (bumpTxs (touchedBy st a btxID) (loadedBalance db st.balances a)).txs = _
    cases htb : touchedBy st a btxID
    · show ((loadedBalance db st.balances a).txs + 1) % 2 ^ 32 = _
      simp [balTxsView]
    · show (loadedBalance db st.balances a).txs = _
      simp [balTxsView]
  · show touchedBy { st with addresses := alistInsert st.addresses a ((alistLookup st.addresses a).getD [] ++ [(⟨btxID, -(i : Int) - 1⟩ : OutpointS)]), balances := _ } a btxID = true
    unfold touchedBy
    rw [alistLookup_insert_self]
    show processedInTx ((alistLookup st.addresses a).getD [] ++ [(⟨btxID, -(i : Int) - 1⟩ : OutpointS)]) btxID = true
    exact processedInTx_append _ _ _

/-- One transaction paying the same address (script `65`) in two
outputs, of 5 and 7. -/
def c7Tx : TxS := ⟨7, [], [⟨0, 5, 65⟩, ⟨1, 7, 65⟩]⟩

/-- The empty connect state. -/
def c7St0 : ConnState := ⟨[], [], [], [], []⟩

/-- The state after the output pass of `c7Tx`. -/
def c7St2 : ConnState :=
  ⟨[[7]], [⟨10, [], [⟨[65], false, 5⟩, ⟨[65], false, 7⟩]⟩], [([7], .inBlock 0)],
   [([65], [⟨[7], 0⟩, ⟨[7], 1⟩])], [([65], ⟨1, 0, 12⟩)]⟩

/-- C7: within one transaction the `Txs` counter of an address moves by
exactly one however many outputs and inputs touch it.  The output pass
of a transaction whose outputs touch `a` at least once bumps the
counter once (mod `2^32`) and adds the sum of all touched output values
to the balance; an input touch of an address already carrying an
outpoint of the transaction (as every output- or input-touched address
does) leaves the counter unchanged, and an input touch of a fresh
address bumps it once and records the outpoint. -/
theorem tx_counted_once_per_address :
    (∀ (P : ParserS) (db : Db) (bheight txi : Nat) (tx : TxS) (st st2 : ConnState)
      (btxID : BTxid) (a : Addr),
      P.packTxid tx.txid = .ok btxID →
      connectTxOutputs P db bheight txi tx st = .ok st2 →
      touchedBy st a btxID = false →
      addrOutVals P a tx.vout ≠ [] →
      balTxsView db st2 a = (balTxsView db st a + 1) % 2 ^ 32 ∧
      balSatView db st2 a = balSatView db st a + (addrOutVals P a tx.vout).sum ∧
      touchedBy st2 a btxID = true) ∧
    (∀ (db : Db) (btxID : BTxid) (i : Nat) (a : Addr) (v : Int) (st : ConnState),
      touchedBy st a btxID = true →
      balTxsView db (connectInputGood db btxID i a v st) a = balTxsView db st a) ∧
    (∀ (db : Db) (btxID : BTxid) (i : Nat) (a : Addr) (v : Int) (st : ConnState),
      touchedBy st a btxID = false →
      balTxsView db (connectInputGood db btxID i a v st) a
        = (balTxsView db st a + 1) % 2 ^ 32 ∧
      touchedBy (connectInputGood db btxID i a v st) a btxID = true) := by
  refine ⟨?_, ?_, ?_⟩
  · intro P db bheight txi tx st st2 btxID a hpack h hf hne
    exact connectTxOutputs_touch P db bheight txi tx st st2 btxID a hpack h hf hne
  · intro db btxID i a v st ht
    rw [(connectInputGood_self db btxID i a v st).1, if_pos ht]
  · intro db btxID i a v st hf
    have h := connectInputGood_self db btxID i a v st
    exact ⟨by rw [h.1, if_neg (by simp [hf])], h.2⟩

theorem tx_counted_once_per_address_witness :
    c6Parser.packTxid c7Tx.txid = .ok [7] ∧
    connectTxOutputs c6Parser c6Db 10 0 c7Tx c7St0 = .ok c7St2 ∧
    touchedBy c7St0 [65] [7] = false ∧
    addrOutVals c6Parser [65] c7Tx.vout = [5, 7] ∧
    balTxsView c6Db c7St0 [65] = 0 ∧
    balTxsView c6Db c7St2 [65] = 1 ∧
    balSatView c6Db c7St2 [65] = 12 ∧
    touchedBy c7St2 [65] [7] = true ∧
    balTxsView c6Db (connectInputGood c6Db [7] 0 [65] 5 c7St2) [65] = 1 ∧
    touchedBy c7St2 [66] [7] = false ∧
    balTxsView c6Db (connectInputGood c6Db [7] 0 [66] 3 c7St2) [66] = 1 := by
  have hne : addrOutVals c6Parser [65] c7Tx.vout ≠ [] := by decide
  have h1 := tx_counted_once_per_address.1 c6Parser c6Db 10 0 c7Tx c7St0 c7St2 [7] [65]
    rfl rfl rfl hne
  have h2 := tx_counted_once_per_address.2.1 c6Db [7] 0 [65] 5 c7St2 h1.2.2
  have h3 := tx_counted_once_per_address.2.2 c6Db [7] 0 [66] 3 c7St2 rfl
  refine ⟨rfl, rfl, rfl, rfl, rfl, ?_, ?_, h1.2.2, ?_, rfl, ?_⟩
  · rw [h1.1]
    rfl
  · rw [h1.2.1]
    rfl
  · rw [h2, h1.1]
    rfl
  · rw [h3.1]
    rfl

end Blockbook
